import Mathlib

/-!
Shallow embedding of the qbf-solver core (Rust) for checking its
natural-language specification.

Conventions of the embedding:
* Rust `i32` values (literals, clause indices, decision levels) are
  modelled as `Int`; the programs never exercise 32-bit overflow on the
  inputs the claims are about.
* `HashMap` is modelled as an association list with insert-replaces
  semantics (`hmInsert`); `MultiMap` is modelled as an association list
  in insertion order (`mmInsert` appends), with `mmGet` returning the
  first value for a key and `mmGetVec` all values in insertion order.
* `HashSet` iteration is modelled by a duplicate-free list
  (`List.eraseDups` keeps the first occurrence); properties proved about
  the results are order-insensitive (set membership).
* A Rust `panic!`/`expect`/out-of-bounds index is modelled by returning
  `none`; everything downstream is in the `Option` monad.
-/

namespace QbfSolver

/-- `literal.abs()` on `i32`, as an `Int`. -/
def intAbs (x : Int) : Int := (x.natAbs : Int)

/-- `HashMap::get` / `MultiMap::get` on the association-list model:
first value stored for the key. -/
def mmGet {α : Type} (m : List (Int × α)) (k : Int) : Option α :=
  (m.find? (fun p => p.1 == k)).map (fun p => p.2)

/-- `MultiMap::get_vec`: all values for the key, in insertion order. -/
def mmGetVec {α : Type} (m : List (Int × α)) (k : Int) : List α :=
  (m.filter (fun p => p.1 == k)).map (fun p => p.2)

/-- `MultiMap::contains_key`. -/
def mmContainsKey {α : Type} (m : List (Int × α)) (k : Int) : Bool :=
  m.any (fun p => p.1 == k)

/-- `MultiMap::insert` appends a new `(key, value)` entry. -/
def mmInsert {α : Type} (m : List (Int × α)) (k : Int) (v : α) : List (Int × α) :=
  m ++ [(k, v)]

/-- `MultiMap::remove`: drops every entry with the key. -/
def mmRemoveKey {α : Type} (m : List (Int × α)) (k : Int) : List (Int × α) :=
  m.filter (fun p => p.1 != k)

/-- `HashMap::insert`: replaces the value stored for the key. -/
def hmInsert {α : Type} (m : List (Int × α)) (k : Int) (v : α) : List (Int × α) :=
  (k, v) :: m.filter (fun p => p.1 != k)

/-- `enum QuantifierType` (data_structures.rs). -/
inductive QuantifierType
  | Universal
  | Existential
deriving DecidableEq

/-- `enum LiteralSelection` (data_structures.rs). -/
inductive LiteralSelection
  | Ordered
  | VariableStateSum
deriving DecidableEq

/-- `struct Quantifier` (data_structures.rs). -/
structure Quantifier where
  q_type : QuantifierType
  literal : Int
  q_level : Int
deriving DecidableEq

/-- `struct Variable` (data_structures.rs). -/
structure Variable where
  q_type : QuantifierType
  q_level : Int
  value : Int
deriving DecidableEq

/-- `struct Clause` (data_structures.rs): existential and universal
literal sublists, each stored in quantifier-prefix order, plus the
soft-deletion flag. -/
structure Clause where
  e_literals : List Int
  a_literals : List Int
  is_removed : Bool
deriving DecidableEq

/-- `Clause::new_empty_clause`. -/
def Clause.new_empty_clause : Clause :=
  { e_literals := [], a_literals := [], is_removed := false }

/-- `Clause::is_unit_clause`. -/
def Clause.is_unit_clause (c : Clause) : Option Int :=
  if c.e_literals.length + c.a_literals.length = 1 ∧ c.is_removed = false then
    if c.a_literals.isEmpty then some (c.e_literals.headD 0)
    else some (c.a_literals.headD 0)
  else none

/-- `Clause::get_literal_list`: existential literals followed by the
universal ones. -/
def Clause.get_literal_list (c : Clause) : List Int :=
  c.e_literals ++ c.a_literals

/-- `Clause::replace_a_literals`. -/
def Clause.replace_a_literals (c : Clause) (literals : List Int) : Clause :=
  { c with a_literals := literals }

/-- `Clause::remove_a_literals`: `retain(|x| !literals.contains(x))`. -/
def Clause.remove_a_literals (c : Clause) (literals : List Int) : Clause :=
  { c with a_literals := c.a_literals.filter (fun x => decide (x ∉ literals)) }

/-- `Clause::remove_a_literal`. -/
def Clause.remove_a_literal (c : Clause) (literal : Int) : Clause :=
  { c with a_literals := c.a_literals.filter (fun x => x != literal) }

/-- `Clause::remove_e_literal`. -/
def Clause.remove_e_literal (c : Clause) (literal : Int) : Clause :=
  { c with e_literals := c.e_literals.filter (fun x => x != literal) }

/-- `Clause::is_empty`. -/
def Clause.is_empty (c : Clause) : Bool :=
  c.e_literals.isEmpty && c.a_literals.isEmpty && !c.is_removed

/-- `Clause::get_clause_length`. -/
def Clause.get_clause_length (c : Clause) : Nat :=
  c.a_literals.length + c.e_literals.length

/-- `struct ClauseSet` (data_structures.rs). -/
structure ClauseSet where
  clause_list : List Clause
  clause_count : Int
deriving DecidableEq

/-- `ClauseSet::contains_empty_set`. -/
def ClauseSet.contains_empty_set (s : ClauseSet) : Bool :=
  s.clause_count == 0

/-- `ClauseSet::contains_empty_clause`. -/
def ClauseSet.contains_empty_clause (s : ClauseSet) : Bool :=
  s.clause_count == -1

/-- `struct Assignment` (data_structures.rs). -/
structure Assignment where
  value : Int
  decision_level : Int
  clause_responsible : Option Int
deriving DecidableEq

/-- `Assignment::is_decision`. -/
def Assignment.is_decision (a : Assignment) : Bool :=
  a.clause_responsible.isNone

/-- `struct QuantificationOrder` (data_structures.rs). -/
structure QuantificationOrder where
  existential_literal_order : List Int
  universal_literal_order : List Int
deriving DecidableEq

/-- `struct RestartData` (data_structures.rs). -/
structure RestartData where
  restart_counter : Int
  conflicts_until_restart : Int
  constant : Int
  current_conflicts : Int
deriving DecidableEq

/-- `struct Config` (data_structures.rs); the pre-resolution
hyperparameters are passed separately where they are needed. -/
structure Config where
  literal_selection : LiteralSelection
  pre_process : Bool
  universal_reduction : Bool
  pure_literal_deletion : Bool
  restarts : Bool
deriving DecidableEq

/-- `Config::universal_reduction_enabled`. -/
def Config.universal_reduction_enabled (c : Config) : Bool :=
  c.universal_reduction

/-- `struct Matrix` (data_structures.rs): the shared solver state. -/
structure Matrix where
  quantifier_list : List Quantifier
  clause_set : ClauseSet
  clause_references : List (Int × Int)
  variable_quantification : List (Int × Variable)
  quantification_order : QuantificationOrder
  config : Config
deriving DecidableEq

/-- `struct CDCLMatrix` (data_structures.rs). -/
structure CDCLMatrix where
  core_data : Matrix
  decision_level : Int
  conflict_clause : Option Clause
  original_clause_list : List Clause
  trail : List Assignment
  assignments : List (Int × Assignment)
  learned_clause_refs : List Int
  restart_data : RestartData
deriving DecidableEq

/-- Iteration of `HashSet::from_iter`/`extend` modelled as the list of
first occurrences: keeps each element once, in first-appearance order.
`seen` is the accumulator of elements already kept. -/
def dedupKeepFirst : List Int → List Int → List Int
  | [], _ => []
  | x :: rest, seen =>
    if x ∈ seen then dedupKeepFirst rest seen
    else x :: dedupKeepFirst rest (x :: seen)

/-- Stable insertion of `x` into an already-sorted list: `x` goes after
every element `y` with `le y x`. -/
def insertSorted (le : Int → Int → Bool) (x : Int) : List Int → List Int
  | [] => [x]
  | y :: ys => if le y x then y :: insertSorted le x ys else x :: y :: ys

/-- Stable sort by the comparator `le` (models Rust's stable
`sort_by`). -/
def stableSortBy (le : Int → Int → Bool) (l : List Int) : List Int :=
  l.foldl (fun acc x => insertSorted le x acc) []

/-- The sort key used by `sort_literals_order` (util.rs):
`sort_order.iter().position(|r| r == a || r == -a)`. -/
def sortKey (sort_order : List Int) (a : Int) : Option Nat :=
  sort_order.findIdx? (fun r => r == a || r == -a)

/-- `Option<usize>` ordering used by the comparator in
`sort_literals_order`: `None` compares below `Some`. -/
def optNatLe : Option Nat → Option Nat → Bool
  | none, _ => true
  | some _, none => false
  | some i, some j => i ≤ j

/-- `sort_literals_order` (util.rs): stable sort of the literals by the
position at which their variable appears in `sort_order`. -/
def sort_literals_order (sort_order : List Int) (literals : List Int) : List Int :=
  stableSortBy (fun a b => optNatLe (sortKey sort_order a) (sortKey sort_order b)) literals

/-- The loop of `detect_universal_literal` (universal_reduction.rs),
iterating the universal sublist from the end: `rem` is the reversed
remainder, `acc` the literals collected so far. -/
def detectLoop (vq : List (Int × Variable)) (clause : Clause) :
    List Int → List Int → List Int
  | [], acc => acc
  | a :: rest, acc =>
    if clause.e_literals = [] then acc ++ clause.a_literals
    else
      match mmGet vq (intAbs a), mmGet vq (intAbs (clause.e_literals.getLastD 0)) with
      | some av, some ev =>
        if ev.q_level < av.q_level then detectLoop vq clause rest (acc ++ [a])
        else acc
      | _, _ => detectLoop vq clause rest acc

/-- `detect_universal_literal` (universal_reduction.rs): the universal
literals that universal reduction may remove from the clause. -/
def detect_universal_literal (clause : Clause) (vq : List (Int × Variable)) :
    List Int :=
  detectLoop vq clause clause.a_literals.reverse []

/-- `select_literal` (literal_selection.rs, Ordered mode): pop
quantifiers from the front of the prefix until one occurs, in either
polarity, in the clause-reference index; `none` models the
out-of-bounds `remove(0)` panic on the exhausted prefix. Returns the
literal, its kind, and the prefix left behind. -/
def select_literal :
    List Quantifier → List (Int × Int) → Option (Int × QuantifierType × List Quantifier)
  | [], _ => none
  | q :: rest, refs =>
    if mmContainsKey refs q.literal || mmContainsKey refs (-q.literal) then
      some (q.literal, q.q_type, rest)
    else select_literal rest refs

/-- `⌈log2 n⌉` computed structurally (smallest `k` with `n ≤ 2^k`),
matching `(n as f32).log2().ceil()` for the integer inputs in range,
where `f32` is exact. -/
def ceilLog2 (n : Nat) : Nat :=
  (List.range (n + 1)).findIdx (fun k => n ≤ 2 ^ k)

/-- `RestartData::update_conflicts_until_restart` (data_structures.rs).
The `f32` steps are modelled exactly on the integer arguments the
solver feeds them (where single-precision `log2`, `fract` and `ceil`
are error-free): `fractional_k.fract() == 0.0` holds iff `1 + i` is a
power of two, and `k = ⌈log2(1 + i)⌉`. The recursion on the shrinking
index is run on explicit fuel; `none` is never reached for the claimed
inputs. `i < 1` (where the source would take `log2` of a value `≤ 1`
and underflow `k - 1` on `u32`) is also mapped to `none`. -/
def update_conflicts_until_restart (constant : Int) : Nat → Int → Option Int
  | 0, _ => none
  | fuel + 1, i =>
    if i < 1 then none
    else
      let n := (1 + i).toNat
      let k := ceilLog2 n
      if 2 ^ k = n then some (constant * 2 ^ (k - 1))
      else update_conflicts_until_restart constant fuel (i - (2 ^ k : Int) / 2 + 1)

/-- The tautology scan inside `resolve` (resolution.rs): walk the
deduplicated resolvent, flagging invalid as soon as a literal whose
negation was already visited appears. -/
def checkInvalid : List Int → List Int → Bool
  | [], _ => false
  | x :: rest, checked =>
    if (-x) ∈ checked then true else checkInvalid rest (x :: checked)

/-- `resolve` (resolution.rs): union of the two literal lists as a set,
minus the pivot and its negation; `none` when the result is
tautological. -/
def resolve (literals_list_1 literals_list_2 : List Int) (literal : Int) :
    Option (List Int) :=
  let s := (dedupKeepFirst (literals_list_1 ++ literals_list_2) []).filter
    (fun x => x != literal && x != -literal)
  if checkInvalid s [] then none else some s

/-- The loop collecting existential and universal literals inside
`convert_literals_to_clause` (util.rs); `none` models the `unwrap`
panic on a variable without quantification metadata. -/
def convertLoop (vq : List (Int × Variable)) :
    List Int → List Int → List Int → Option (List Int × List Int)
  | [], es, as_ => some (es, as_)
  | l :: rest, es, as_ =>
    match mmGet vq (intAbs l) with
    | none => none
    | some v =>
      if v.q_type = QuantifierType.Existential then convertLoop vq rest (es ++ [l]) as_
      else convertLoop vq rest es (as_ ++ [l])

/-- `convert_literals_to_clause` (util.rs): split the literals by
quantifier kind and sort each sublist into prefix order. -/
def convert_literals_to_clause (vq : List (Int × Variable))
    (qorder : QuantificationOrder) (literals : List Int) : Option Clause :=
  match convertLoop vq literals [] [] with
  | none => none
  | some (es, as_) =>
    some { e_literals := sort_literals_order qorder.existential_literal_order es,
           a_literals := sort_literals_order qorder.universal_literal_order as_,
           is_removed := false }

/-- The fold inside `get_highest_decision_level`
(cdcl/conflict_analysis.rs); `lit`/`lvl` are the running highest
decision literal and level (both start at `-1`). -/
def highestLoop (m : CDCLMatrix) : List Int → Int → Int → Option (Int × Int)
  | [], lit, lvl => some (lit, lvl)
  | l :: rest, lit, lvl =>
    match mmGet m.core_data.variable_quantification (intAbs l),
          mmGet m.assignments (intAbs l) with
    | some v, some a =>
      if v.q_type = QuantifierType.Existential ∧ lvl < a.decision_level then
        highestLoop m rest l a.decision_level
      else highestLoop m rest lit lvl
    | _, _ => none

/-- `get_highest_decision_level` (cdcl/conflict_analysis.rs). -/
def get_highest_decision_level (m : CDCLMatrix) (literals : List Int) :
    Option (Int × Int) :=
  highestLoop m literals (-1) (-1)

/-- The scan in `contains_one_highest_decision_literal` that looks for
a second existential literal at the highest decision level; returns
`two_highest_decision_literals`. -/
def secondHighestLoop (m : CDCLMatrix) (hdlLit hlvl : Int) :
    List Int → Option Bool
  | [] => some false
  | l :: rest =>
    match mmGet m.core_data.variable_quantification (intAbs l),
          mmGet m.assignments (intAbs l) with
    | some v, some a =>
      if v.q_type = QuantifierType.Existential ∧ a.decision_level = hlvl ∧ hdlLit ≠ l then
        some true
      else secondHighestLoop m hdlLit hlvl rest
    | _, _ => none

/-- `contains_one_highest_decision_literal` (stopping constraint 1,
cdcl/conflict_analysis.rs). -/
def contains_one_highest_decision_literal (m : CDCLMatrix) (literals : List Int) :
    Option (Int × Int × Bool) :=
  match get_highest_decision_level m literals with
  | none => none
  | some (v, hlvl) =>
    match secondHighestLoop m v hlvl literals with
    | none => none
    | some two => some (v, hlvl, !two)

/-- The backward trail walk of `contains_highest_decision_level_decision`
(stopping constraint 2); the argument list is the trail reversed, so its
head is the entry the source pops first. `none` models the panic when
the trail empties without a break. -/
def decisionScan (m : CDCLMatrix) (hlvl : Int) : List Assignment → Option Bool
  | [] => none
  | a :: rest =>
    if a.decision_level = hlvl ∧ a.is_decision = true then
      match mmGet m.core_data.variable_quantification (intAbs a.value) with
      | none => none
      | some v => some (v.q_type = QuantifierType.Existential)
    else if a.decision_level < hlvl then some false
    else decisionScan m hlvl rest

/-- `contains_highest_decision_level_decision` (stopping constraint 2,
cdcl/conflict_analysis.rs). -/
def contains_highest_decision_level_decision (m : CDCLMatrix) (hlvl : Int) :
    Option Bool :=
  decisionScan m hlvl m.trail.reverse

/-- The scan of `all_previous_universals_assigned_correctly` over the
working clause (stopping constraint 3). -/
def universalsScan (m : CDCLMatrix) (hdlLevel : Int) : List Int → Option Bool
  | [] => some true
  | l :: rest =>
    match mmGet m.core_data.variable_quantification (intAbs l) with
    | none => none
    | some qv =>
      if qv.q_type = QuantifierType.Universal ∧ qv.q_level < hdlLevel then
        match mmGet m.assignments (intAbs l) with
        | none => none
        | some a => if a.value ≠ -l then some false else universalsScan m hdlLevel rest
      else universalsScan m hdlLevel rest

/-- `all_previous_universals_assigned_correctly` (stopping constraint 3,
cdcl/conflict_analysis.rs). -/
def all_previous_universals_assigned_correctly (m : CDCLMatrix)
    (literals : List Int) (hdl : Int) : Option Bool :=
  match mmGet m.core_data.variable_quantification (intAbs hdl) with
  | none => none
  | some v => universalsScan m v.q_level literals

/-- The max fold of `calculate_backtrack_level`
(cdcl/conflict_analysis.rs); `acc` starts at `-1`. -/
def backtrackFold (m : CDCLMatrix) (hlvl : Int) : List Int → Int → Option Int
  | [], acc => some acc
  | l :: rest, acc =>
    match mmGet m.assignments (intAbs l) with
    | none => none
    | some a =>
      if a.decision_level = hlvl then backtrackFold m hlvl rest acc
      else backtrackFold m hlvl rest (max acc a.decision_level)

/-- `calculate_backtrack_level` (cdcl/conflict_analysis.rs): max
decision level over the literals not at the highest decision level,
with the `-1 → highest − 1` and `0 → 1` edge cases of the source. -/
def calculate_backtrack_level (m : CDCLMatrix) (literals : List Int) (hlvl : Int) :
    Option Int :=
  match backtrackFold m hlvl literals (-1) with
  | none => none
  | some b0 =>
    let b1 := if b0 = -1 then hlvl - 1 else b0
    some (if literals.length > 1 ∧ b1 = 0 then 1 else b1)

/-- The accumulator fold of `check_unsatisfiability_criteria`
(cdcl/conflict_analysis.rs): `onlyU` and `e0` are `only_universals` and
`existentials_at_level_0`. -/
def unsatFold (m : CDCLMatrix) : List Int → Bool → Bool → Option Bool
  | [], onlyU, e0 => some (onlyU || e0)
  | l :: rest, onlyU, e0 =>
    match mmGet m.core_data.variable_quantification (intAbs l) with
    | none => none
    | some v =>
      if v.q_type = QuantifierType.Existential then
        match mmGet m.assignments (intAbs l) with
        | none => none
        | some a =>
          unsatFold m rest false (if a.decision_level > 0 then false else e0)
      else unsatFold m rest onlyU e0

/-- `check_unsatisfiability_criteria` (cdcl/conflict_analysis.rs). -/
def check_unsatisfiability_criteria (m : CDCLMatrix) (literals : List Int) :
    Option Bool :=
  unsatFold m literals true true

/-- Outcome of the resolution loop in `analyse_conflict`: either the
unsatisfiability criterion fired, or the loop stopped with a working
clause and a backtrack level. -/
inductive ConflictLoopResult
  | unsat
  | stopped (working : List Int) (backtrack_level : Int)
deriving DecidableEq

/-- The resolution loop of `analyse_conflict`
(cdcl/conflict_analysis.rs). The first argument is the reversed
remaining trail clone (head = next entry the source pops), the second
the working clause `current_literals`. -/
def analyseLoop (m : CDCLMatrix) :
    List Assignment → List Int → Option ConflictLoopResult
  | [], w =>
    match contains_one_highest_decision_literal m w with
    | none => none
    | some (_, hlvl, _) =>
      match calculate_backtrack_level m w hlvl with
      | none => none
      | some bt => some (ConflictLoopResult.stopped w bt)
  | a :: rest, w =>
    if a.is_decision then analyseLoop m rest w
    else
      match mmGet m.core_data.variable_quantification (intAbs a.value) with
      | none => none
      | some v =>
        if v.q_type = QuantifierType.Existential ∧ (a.value ∈ w ∨ -a.value ∈ w) then
          match a.clause_responsible with
          | none => none
          | some ci =>
            if ci < 0 then none
            else
              match m.original_clause_list.get? ci.toNat with
              | none => none
              | some reason =>
                match resolve w reason.get_literal_list a.value with
                | none => none
                | some w2 =>
                  match check_unsatisfiability_criteria m w2 with
                  | none => none
                  | some true => some ConflictLoopResult.unsat
                  | some false =>
                    match contains_one_highest_decision_literal m w2 with
                    | none => none
                    | some (hdl, hlvl, c1) =>
                      if c1 = false then analyseLoop m rest w2
                      else
                        match contains_highest_decision_level_decision m hlvl with
                        | none => none
                        | some c2 =>
                          if c2 = false then analyseLoop m rest w2
                          else
                            match all_previous_universals_assigned_correctly m w2 hdl with
                            | none => none
                            | some c3 =>
                              if c3 = false then analyseLoop m rest w2
                              else
                                match calculate_backtrack_level m w2 hlvl with
                                | none => none
                                | some bt => some (ConflictLoopResult.stopped w2 bt)
        else analyseLoop m rest w

/-- `analyse_conflict` (cdcl/conflict_analysis.rs): the returned
`(learned clause, backtrack level)` pair. The source also clears
`matrix.conflict_clause` and bumps a statistics counter; those writes
are irrelevant to the returned pair and are not recorded here. -/
def analyse_conflict (m : CDCLMatrix) : Option (Clause × Int) :=
  match m.conflict_clause with
  | none => some (Clause.new_empty_clause, m.decision_level)
  | some conflict =>
    match analyseLoop m m.trail.reverse conflict.get_literal_list with
    | none => none
    | some ConflictLoopResult.unsat => some (Clause.new_empty_clause, -1)
    | some (ConflictLoopResult.stopped w bt) =>
      let bt2 := if w.length = 1 then 0 else bt
      match convert_literals_to_clause m.core_data.variable_quantification
          m.core_data.quantification_order w with
      | none => none
      | some c => some (c, bt2)

/-- The tuple returned by `cache_necessary_structures` (cdcl/cdcl.rs),
as a record: clause database, clause references, quantifier prefix,
trail, assignments, decision level. -/
structure CachedStructures where
  clause_set : ClauseSet
  clause_references : List (Int × Int)
  quantifier_list : List Quantifier
  trail : List Assignment
  assignments : List (Int × Assignment)
  decision_level : Int
deriving DecidableEq

/-- `cache_necessary_structures` (cdcl/cdcl.rs). -/
def cache_necessary_structures (m : CDCLMatrix) : CachedStructures :=
  { clause_set := m.core_data.clause_set,
    clause_references := m.core_data.clause_references,
    quantifier_list := m.core_data.quantifier_list,
    trail := m.trail,
    assignments := m.assignments,
    decision_level := m.decision_level }

/-- `CDCLMatrix::apply_current_assignments` (data_structures.rs):
remove from the clause every literal whose variable is currently
assigned. -/
def apply_current_assignments (m : CDCLMatrix) (clause : Clause) : Clause :=
  let c1 := clause.e_literals.foldl
    (fun acc e =>
      if (mmGet m.assignments (intAbs e)).isSome then acc.remove_e_literal e else acc)
    clause
  clause.a_literals.foldl
    (fun acc a =>
      if (mmGet m.assignments (intAbs a)).isSome then acc.remove_a_literal a else acc)
    c1

/-- The iteration of `CDCLMatrix::readd_learned_clauses`
(data_structures.rs) over the learned-clause references; `none` models
the out-of-bounds index into `original_clause_list`. -/
def readdLoop : List Int → CDCLMatrix → Option CDCLMatrix
  | [], m => some m
  | r :: rest, m =>
    if r > (m.core_data.clause_set.clause_list.length : Int) - 1 then
      if r < 0 then none
      else
        match m.original_clause_list.get? r.toNat with
        | none => none
        | some clause0 =>
          let clause := apply_current_assignments m clause0
          let cl := m.core_data.clause_set.clause_list ++ [clause]
          let idx : Int := (cl.length : Int) - 1
          let refs2 := clause.get_literal_list.foldl
            (fun acc lit => mmInsert acc lit idx) m.core_data.clause_references
          readdLoop rest
            { m with core_data :=
              { m.core_data with
                clause_set :=
                  { clause_list := cl,
                    clause_count := m.core_data.clause_set.clause_count + 1 },
                clause_references := refs2 } }
    else readdLoop rest m

/-- `CDCLMatrix::readd_learned_clauses` (data_structures.rs). -/
def readd_learned_clauses (m : CDCLMatrix) : Option CDCLMatrix :=
  readdLoop m.learned_clause_refs m

/-- `restore_necessary_structures` (cdcl/cdcl.rs): overwrite the six
cached structures, then re-add learned clauses the cache predates. -/
def restore_necessary_structures (m : CDCLMatrix) (cached : CachedStructures) :
    Option CDCLMatrix :=
  readd_learned_clauses
    { m with
      core_data :=
        { m.core_data with
          clause_set := cached.clause_set,
          clause_references := cached.clause_references,
          quantifier_list := cached.quantifier_list },
      trail := cached.trail,
      assignments := cached.assignments,
      decision_level := cached.decision_level }

/-- State threaded through the per-literal resolution loops of
`pre_resolution` (resolution.rs): the clause hash table, the resolvents
accepted in the current iteration, and `resolved_clauses_for_literal`. -/
structure PreResState where
  hashtable : List Clause
  resolved_clauses : List Clause
  resolved_clauses_for_literal : Nat
deriving DecidableEq

/-- The inner loop of `pre_resolution` (resolution.rs) over the clauses
containing the negated pivot, for one fixed positive-side clause
`clause_1`: each accepted resolvent is recorded and counted; the
per-literal cap is checked only when the resolvent's length is at most
`repeat_above` (otherwise the source's `continue` skips the check). -/
def preResInner (clause_list : List Clause) (vq : List (Int × Variable))
    (qorder : QuantificationOrder) (lit : Int) (cap repeat_above : Nat)
    (clause_1 : Clause) : List Int → PreResState → Option PreResState
  | [], st => some st
  | n_ref :: rest, st =>
    if n_ref < 0 then none
    else
      match clause_list.get? n_ref.toNat with
      | none => none
      | some clause_2 =>
        match resolve clause_1.get_literal_list clause_2.get_literal_list lit with
        | none => preResInner clause_list vq qorder lit cap repeat_above clause_1 rest st
        | some resolved_literals =>
          match convert_literals_to_clause vq qorder resolved_literals with
          | none => none
          | some resolved_clause =>
            if resolved_clause ∈ st.hashtable then
              preResInner clause_list vq qorder lit cap repeat_above clause_1 rest st
            else
              let st2 : PreResState :=
                { hashtable := st.hashtable ++ [resolved_clause],
                  resolved_clauses := st.resolved_clauses ++ [resolved_clause],
                  resolved_clauses_for_literal := st.resolved_clauses_for_literal + 1 }
              if resolved_literals.length > repeat_above then
                preResInner clause_list vq qorder lit cap repeat_above clause_1 rest st2
              else if cap ≤ st2.resolved_clauses_for_literal then some st2
              else preResInner clause_list vq qorder lit cap repeat_above clause_1 rest st2

/-- The outer loop of `pre_resolution` (resolution.rs) over the clauses
containing the pivot positively; after each inner loop the per-literal
cap is checked again (`if resolved_clauses_for_literal >= resolutions_per_literal
{ break; }`). -/
def preResOuter (clause_list : List Clause) (vq : List (Int × Variable))
    (qorder : QuantificationOrder) (lit : Int) (cap repeat_above : Nat)
    (neg_refs : List Int) : List Int → PreResState → Option PreResState
  | [], st => some st
  | p_ref :: rest, st =>
    if p_ref < 0 then none
    else
      match clause_list.get? p_ref.toNat with
      | none => none
      | some clause_1 =>
        match preResInner clause_list vq qorder lit cap repeat_above clause_1 neg_refs st with
        | none => none
        | some st2 =>
          if cap ≤ st2.resolved_clauses_for_literal then some st2
          else preResOuter clause_list vq qorder lit cap repeat_above neg_refs rest st2

/-- In-place update of the clause at an index; `none` models the Rust
index panic when the index is out of bounds. -/
def setClause (cs : List Clause) (i : Nat) (f : Clause → Clause) :
    Option (List Clause) :=
  match cs.get? i with
  | none => none
  | some c => some (cs.set i (f c))

/-- `ClauseSet::check_contradiction` (data_structures.rs): with an
index, sets `clause_count` to `-1` when that clause is empty; without,
just reports whether `clause_count` is `-1`. -/
def ClauseSet.check_contradiction (s : ClauseSet) (clause_index : Option Int) :
    Option (ClauseSet × Bool) :=
  match clause_index with
  | none => some (s, s.clause_count == -1)
  | some i =>
    if i < 0 then none
    else
      match s.clause_list.get? i.toNat with
      | none => none
      | some c =>
        if c.is_empty then some ({ s with clause_count := -1 }, true)
        else some (s, false)

/-- The scan of `get_quantifier_type` (util.rs); `i` is the running
index. -/
def quantifierScan : List Quantifier → Int → Nat → QuantifierType × Option Nat
  | [], _, _ => (QuantifierType.Existential, none)
  | q :: rest, lit, i =>
    if q.literal = lit ∨ q.literal = -lit then (q.q_type, some i)
    else quantifierScan rest lit (i + 1)

/-- `get_quantifier_type` (util.rs): kind and prefix position of the
literal, defaulting to existential when it is not quantified. -/
def get_quantifier_type (ql : List Quantifier) (unit_literal : Int) :
    QuantifierType × Option Nat :=
  quantifierScan ql unit_literal 0

/-- `remove_universal_literal` (universal_reduction.rs): drop the
detected universal literals from the clause and run the
empty-clause check on it. -/
def remove_universal_literal (mx : Matrix) (literals : List Int)
    (clause_index : Int) : Option Matrix :=
  if clause_index < 0 then none
  else
    match setClause mx.clause_set.clause_list clause_index.toNat
        (fun c => c.remove_a_literals literals) with
    | none => none
    | some cl =>
      match ClauseSet.check_contradiction { mx.clause_set with clause_list := cl }
          (some clause_index) with
      | none => none
      | some (cs2, _) => some { mx with clause_set := cs2 }

/-- `readd_universal_literal` (universal_reduction.rs): put the removed
universal literals back and re-sort the universal sublist into prefix
order. -/
def readd_universal_literal (mx : Matrix) (literals : List Int)
    (clause_index : Int) : Option Matrix :=
  if clause_index < 0 then none
  else
    match mx.clause_set.clause_list.get? clause_index.toNat with
    | none => none
    | some c =>
      let ordered := sort_literals_order mx.quantification_order.universal_literal_order
        (c.a_literals ++ literals)
      match setClause mx.clause_set.clause_list clause_index.toNat
          (fun c0 => c0.replace_a_literals ordered) with
      | none => none
      | some cl =>
        some { mx with clause_set := { mx.clause_set with clause_list := cl } }

/-- The loop of the CDCL `unit_propagate` (cdcl/unit_propagate.rs) over
the clauses containing the propagated literal positively: mark each
satisfied clause removed, decrement the counter, prune its index
entries, and return early (`true`) when the clause set becomes empty. -/
def upPosLoop : List Int → CDCLMatrix → Option (CDCLMatrix × Bool)
  | [], m => some (m, false)
  | ci :: rest, m =>
    if ci < 0 then none
    else
      match setClause m.core_data.clause_set.clause_list ci.toNat
          (fun c => { c with is_removed := true }) with
      | none => none
      | some cl =>
        let m2 : CDCLMatrix :=
          { m with core_data :=
            { m.core_data with
              clause_set :=
                { clause_list := cl,
                  clause_count := m.core_data.clause_set.clause_count - 1 },
              clause_references :=
                m.core_data.clause_references.filter (fun p => p.2 != ci) } }
        if m2.core_data.clause_set.contains_empty_set then some (m2, true)
        else upPosLoop rest m2

/-- The speculative universal-reduction step inside the CDCL
`unit_propagate` (cdcl/unit_propagate.rs): detect and remove removable
universal literals; when the clause set signals contradiction, return
with the flag set, otherwise undo the reduction. -/
def upReductionStep (m : CDCLMatrix) (ci : Int) : Option (CDCLMatrix × Bool) :=
  if ci < 0 then none
  else
    match m.core_data.clause_set.clause_list.get? ci.toNat with
    | none => none
    | some clause =>
      let universal_literals :=
        detect_universal_literal clause m.core_data.variable_quantification
      if universal_literals = [] then some (m, false)
      else
        match remove_universal_literal m.core_data universal_literals ci with
        | none => none
        | some mx2 =>
          match mx2.clause_set.check_contradiction none with
          | none => none
          | some (cs2, true) =>
            some ({ m with core_data :=
                { mx2 with clause_set := { cs2 with clause_count := -1 } } }, true)
          | some (_, false) =>
            match readd_universal_literal mx2 universal_literals ci with
            | none => none
            | some mx3 => some ({ m with core_data := mx3 }, false)

/-- The loop of the CDCL `unit_propagate` (cdcl/unit_propagate.rs) over
the clauses containing the complement of the propagated literal:
shorten each clause, speculatively universally reduce it, detect
conflicts, and queue newly exposed units. Returns the updated matrix,
queue and implied-reason map, plus `true` on an early return. -/
def upNegLoop (l : Int) (defq : QuantifierType) :
    List Int → CDCLMatrix → List Int → List (Int × Int) →
    Option (CDCLMatrix × List Int × List (Int × Int) × Bool)
  | [], m, q, imp => some (m, q, imp, false)
  | ci :: rest, m, q, imp =>
    if ci < 0 then none
    else
      match setClause m.core_data.clause_set.clause_list ci.toNat
          (fun c =>
            if defq = QuantifierType.Existential then c.remove_e_literal (-l)
            else c.remove_a_literal (-l)) with
      | none => none
      | some cl =>
        let m2 : CDCLMatrix :=
          { m with core_data :=
            { m.core_data with
              clause_set := { m.core_data.clause_set with clause_list := cl },
              clause_references := mmRemoveKey m.core_data.clause_references (-l) } }
        match
          (if m2.core_data.config.universal_reduction_enabled then upReductionStep m2 ci
           else some (m2, false)) with
        | none => none
        | some (m3, true) => some (m3, q, imp, true)
        | some (m3, false) =>
          match m3.core_data.clause_set.check_contradiction (some ci) with
          | none => none
          | some (cs4, true) =>
            match m3.original_clause_list.get? ci.toNat with
            | none => none
            | some conflict =>
              some ({ m3 with
                  core_data := { m3.core_data with clause_set := cs4 },
                  conflict_clause := some conflict }, q, imp, true)
          | some (cs4, false) =>
            let m4 : CDCLMatrix :=
              { m3 with core_data := { m3.core_data with clause_set := cs4 } }
            match m4.core_data.clause_set.clause_list.get? ci.toNat with
            | none => none
            | some c =>
              match c.is_unit_clause with
              | none => upNegLoop l defq rest m4 q imp
              | some u =>
                if u ∈ q then upNegLoop l defq rest m4 q imp
                else upNegLoop l defq rest m4 (q ++ [u]) (hmInsert imp u ci)

/-- The while loop of the CDCL `unit_propagate`
(cdcl/unit_propagate.rs), on explicit fuel (the source's queue can grow
while clauses shrink; fuel exhaustion is mapped to `none`, like a
panic). `queue` is the FIFO propagation queue, `implied` the local
`implied_clause_references` map. The statistics counter of the source
is not modelled. -/
def upAux : Nat → CDCLMatrix → List Int → List (Int × Int) → Bool →
    Option CDCLMatrix
  | 0, _, _, _, _ => none
  | _ + 1, m, [], _, _ => some m
  | fuel + 1, m, l :: qrest, implied, decision =>
    let m1 : CDCLMatrix :=
      if decision then
        let a : Assignment :=
          { value := l, decision_level := m.decision_level,
            clause_responsible := mmGet implied l }
        { m with trail := m.trail ++ [a],
                 assignments := hmInsert m.assignments (intAbs l) a }
      else m
    let qt := get_quantifier_type m1.core_data.quantifier_list l
    let m2 : CDCLMatrix :=
      match qt.2 with
      | some i =>
        { m1 with core_data :=
          { m1.core_data with
            quantifier_list := m1.core_data.quantifier_list.eraseIdx i } }
      | none => m1
    if qt.1 = QuantifierType.Universal then
      some { m2 with core_data :=
        { m2.core_data with
          clause_set := { m2.core_data.clause_set with clause_count := -1 } } }
    else
      match upPosLoop (mmGetVec m2.core_data.clause_references l) m2 with
      | none => none
      | some (m3, true) => some m3
      | some (m3, false) =>
        let negRefs := mmGetVec m3.core_data.clause_references (-l)
        if negRefs.isEmpty then upAux fuel m3 qrest implied decision
        else
          match mmGet m3.core_data.variable_quantification (intAbs l) with
          | none => none
          | some dv =>
            match upNegLoop l dv.q_type negRefs m3 qrest implied with
            | none => none
            | some (m4, _, _, true) => some m4
            | some (m4, q2, imp2, false) => upAux fuel m4 q2 imp2 decision

/-- The CDCL `unit_propagate` (cdcl/unit_propagate.rs): propagate the
given unit literals to a fixed point, with `decision` marking whether
assignment records are created. -/
def unit_propagate (fuel : Nat) (m : CDCLMatrix) (unit_literal : List Int)
    (decision : Bool) : Option CDCLMatrix :=
  upAux fuel m unit_literal [] decision

/-! Spec-side notions, written from the specification's wording, used to
state the claims about the embedded code. -/

/-- The variable of `l` carries quantification metadata. -/
def HasMeta (vq : List (Int × Variable)) (l : Int) : Prop :=
  (mmGet vq (intAbs l)).isSome = true

/-- `q_level` of a literal's variable (0 when metadata is absent; only
used under `HasMeta`). -/
def metaLevel (vq : List (Int × Variable)) (l : Int) : Int :=
  ((mmGet vq (intAbs l)).map Variable.q_level).getD 0

/-- A literal sublist is sorted in quantifier-prefix order: its
variables' `q_level`s are non-decreasing. -/
def PrefixSorted (vq : List (Int × Variable)) (l : List Int) : Prop :=
  l.Pairwise (fun a b => metaLevel vq a ≤ metaLevel vq b)

/-- The decision level currently assigned to the variable of `l`
(0 when unassigned; only used where the claim presumes an
assignment). -/
def assignedLevel (m : CDCLMatrix) (l : Int) : Int :=
  ((mmGet m.assignments (intAbs l)).map Assignment.decision_level).getD 0

/-- The spec's backjump-level formula:
`max { decision_level(ℓ) : ℓ in working clause, decision_level(ℓ) ≠ highest }`,
or `highest − 1` when that set is empty, bumped to `1` when the clause
has more than one literal and the value is `0`. `levels` are the
decision levels of the working clause's literals, `n` its size. -/
def specBacktrackLevel (levels : List Int) (hlvl : Int) (n : Nat) : Int :=
  let s := levels.filter (fun d => d ≠ hlvl)
  let core : Int :=
    match s with
    | [] => hlvl - 1
    | d :: ds => ds.foldl max d
  if 1 < n ∧ core = 0 then 1 else core

/-- Every lookup `check_unsatisfiability_criteria` performs on the
working clause succeeds: quantification metadata for every literal, and
an assignment for every existential literal. -/
def CheckPresence (m : CDCLMatrix) (w : List Int) : Prop :=
  ∀ x ∈ w,
    (mmGet m.core_data.variable_quantification (intAbs x)).isSome = true ∧
    ∀ v, mmGet m.core_data.variable_quantification (intAbs x) = some v →
      v.q_type = QuantifierType.Existential →
      (mmGet m.assignments (intAbs x)).isSome = true

/-- The spec's unsatisfiability criterion on a working clause: it
contains only universal literals (vacuously holding when empty), or
every existential literal in it is assigned at decision level 0. -/
def SpecUnsatCondition (m : CDCLMatrix) (w : List Int) : Prop :=
  (∀ x ∈ w, ∀ v, mmGet m.core_data.variable_quantification (intAbs x) = some v →
    v.q_type = QuantifierType.Universal) ∨
  (∀ x ∈ w, ∀ v, mmGet m.core_data.variable_quantification (intAbs x) = some v →
    v.q_type = QuantifierType.Existential →
    ∀ a, mmGet m.assignments (intAbs x) = some a → a.decision_level = 0)

/-- The three stopping constraints evaluated in source order with the
source's short-circuiting; `some false` means the loop continues,
`some true` that it stops. -/
def stopCheck (m : CDCLMatrix) (w : List Int) : Option Bool :=
  match contains_one_highest_decision_literal m w with
  | none => none
  | some (hdl, hlvl, c1) =>
    if c1 = false then some false
    else
      match contains_highest_decision_level_decision m hlvl with
      | none => none
      | some c2 =>
        if c2 = false then some false
        else all_previous_universals_assigned_correctly m w hdl

/-- The resolution loop of `analyse_conflict` reaches, at some point
after performing a resolution step, a working clause satisfying the
spec's unsatisfiability criterion. The first list is the reversed
remaining trail (head popped first), the second the working clause at
that point; the constructors follow the loop's cases exactly, so the
predicate holds iff some later iteration's freshly resolved working
clause satisfies `SpecUnsatCondition`. -/
inductive TriggersUnsat (m : CDCLMatrix) : List Assignment → List Int → Prop
  | here {a : Assignment} {rest : List Assignment} {w w2 : List Int}
      {v : Variable} {ci : Int} {reason : Clause} :
      a.is_decision = false →
      mmGet m.core_data.variable_quantification (intAbs a.value) = some v →
      v.q_type = QuantifierType.Existential →
      (a.value ∈ w ∨ -a.value ∈ w) →
      a.clause_responsible = some ci →
      ¬ ci < 0 →
      m.original_clause_list.get? ci.toNat = some reason →
      resolve w reason.get_literal_list a.value = some w2 →
      CheckPresence m w2 →
      SpecUnsatCondition m w2 →
      TriggersUnsat m (a :: rest) w
  | skipDecision {a : Assignment} {rest : List Assignment} {w : List Int} :
      a.is_decision = true →
      TriggersUnsat m rest w →
      TriggersUnsat m (a :: rest) w
  | skipNoResolution {a : Assignment} {rest : List Assignment} {w : List Int}
      {v : Variable} :
      a.is_decision = false →
      mmGet m.core_data.variable_quantification (intAbs a.value) = some v →
      ¬ (v.q_type = QuantifierType.Existential ∧ (a.value ∈ w ∨ -a.value ∈ w)) →
      TriggersUnsat m rest w →
      TriggersUnsat m (a :: rest) w
  | skipAfterResolution {a : Assignment} {rest : List Assignment} {w w2 : List Int}
      {v : Variable} {ci : Int} {reason : Clause} :
      a.is_decision = false →
      mmGet m.core_data.variable_quantification (intAbs a.value) = some v →
      v.q_type = QuantifierType.Existential →
      (a.value ∈ w ∨ -a.value ∈ w) →
      a.clause_responsible = some ci →
      ¬ ci < 0 →
      m.original_clause_list.get? ci.toNat = some reason →
      resolve w reason.get_literal_list a.value = some w2 →
      CheckPresence m w2 →
      ¬ SpecUnsatCondition m w2 →
      stopCheck m w2 = some false →
      TriggersUnsat m rest w2 →
      TriggersUnsat m (a :: rest) w


/-- A `Config` with every feature flag off (witness fixture). -/
def configOff : Config :=
  { literal_selection := LiteralSelection.Ordered, pre_process := false,
    universal_reduction := false, pure_literal_deletion := false, restarts := false }

/-- An empty `Matrix` (witness fixture). -/
def matrixEmpty : Matrix :=
  { quantifier_list := [], clause_set := { clause_list := [], clause_count := 0 },
    clause_references := [], variable_quantification := [],
    quantification_order := { existential_literal_order := [], universal_literal_order := [] },
    config := configOff }

/-- An empty `CDCLMatrix` over `matrixEmpty` (witness fixture). -/
def cdclBase : CDCLMatrix :=
  { core_data := matrixEmpty, decision_level := 0, conflict_clause := none,
    original_clause_list := [], trail := [], assignments := [],
    learned_clause_refs := [],
    restart_data := ⟨1, 100, 100, 0⟩ }


/-- Pre-resolution fixture: four existential variables at one level. -/
def preResVq : List (Int × Variable) :=
  [((1 : Int), ⟨QuantifierType.Existential, 1, 1⟩),
   ((2 : Int), ⟨QuantifierType.Existential, 1, 2⟩),
   ((3 : Int), ⟨QuantifierType.Existential, 1, 3⟩),
   ((4 : Int), ⟨QuantifierType.Existential, 1, 4⟩)]

/-- Pre-resolution fixture: prefix order of the four variables. -/
def preResOrder : QuantificationOrder := ⟨[1, 2, 3, 4], []⟩

/-- Pre-resolution fixture: clauses `1∨2`, `¬1∨3`, `¬1∨4`, giving two
distinct non-tautological resolvents on pivot 1. -/
def preResClauses : List Clause :=
  [⟨[1, 2], [], false⟩, ⟨[-1, 3], [], false⟩, ⟨[-1, 4], [], false⟩]

/-! Helper lemmas. -/

theorem mem_dedupKeepFirst (x : Int) :
    ∀ (l seen : List Int), x ∈ dedupKeepFirst l seen ↔ x ∈ l ∧ x ∉ seen := by
  intro l
  induction l with
  | nil => intro seen; simp [dedupKeepFirst]
  | cons y rest ih =>
    intro seen
    by_cases hy : y ∈ seen
    · rw [dedupKeepFirst, if_pos hy, ih]
      constructor
      · rintro ⟨hx, hns⟩; exact ⟨List.mem_cons_of_mem _ hx, hns⟩
      · rintro ⟨hx, hns⟩
        rcases List.mem_cons.mp hx with rfl | hx'
        · exact absurd hy hns
        · exact ⟨hx', hns⟩
    · rw [dedupKeepFirst, if_neg hy]
      constructor
      · intro hmem
        rcases List.mem_cons.mp hmem with rfl | hx'
        · exact ⟨List.mem_cons_self _ _, hy⟩
        · rcases (ih (y :: seen)).mp hx' with ⟨hx, hns⟩
          exact ⟨List.mem_cons_of_mem _ hx, fun hs => hns (List.mem_cons_of_mem _ hs)⟩
      · rintro ⟨hx, hns⟩
        rcases List.mem_cons.mp hx with rfl | hx'
        · exact List.mem_cons_self _ _
        · by_cases hxy : x = y
          · subst hxy; exact List.mem_cons_self _ _
          · exact List.mem_cons_of_mem _ ((ih (y :: seen)).mpr
              ⟨hx', fun hs => (List.mem_cons.mp hs).elim hxy hns⟩)

theorem nodup_dedupKeepFirst : ∀ (l seen : List Int), (dedupKeepFirst l seen).Nodup := by
  intro l
  induction l with
  | nil => intro seen; simp [dedupKeepFirst]
  | cons y rest ih =>
    intro seen
    by_cases hy : y ∈ seen
    · rw [dedupKeepFirst, if_pos hy]; exact ih seen
    · rw [dedupKeepFirst, if_neg hy]
      refine List.nodup_cons.mpr ⟨?_, ih _⟩
      intro hmem
      exact ((mem_dedupKeepFirst y rest (y :: seen)).mp hmem).2 (List.mem_cons_self _ _)

theorem checkInvalid_iff :
    ∀ (l checked : List Int), l.Nodup →
      (checkInvalid l checked = true ↔ ∃ x ∈ l, -x ∈ checked ∨ (-x ∈ l ∧ x ≠ -x)) := by
  intro l
  induction l with
  | nil => intro checked _; simp [checkInvalid]
  | cons y rest ih =>
    intro checked hnd
    obtain ⟨hy_not, hrest⟩ := List.nodup_cons.mp hnd
    by_cases hin : (-y) ∈ checked
    · rw [checkInvalid, if_pos hin]
      simp only [true_iff]
      exact ⟨y, List.mem_cons_self _ _, Or.inl hin⟩
    · rw [checkInvalid, if_neg hin, ih (y :: checked) hrest]
      constructor
      · rintro ⟨x, hx, hcase⟩
        rcases hcase with hc | ⟨hr, hne⟩
        · rcases List.mem_cons.mp hc with hxy | hc'
          · refine ⟨x, List.mem_cons_of_mem _ hx,
              Or.inr ⟨by rw [hxy]; exact List.mem_cons_self _ _, ?_⟩⟩
            intro heq
            rw [← heq] at hxy
            rw [hxy] at hx
            exact hy_not hx
          · exact ⟨x, List.mem_cons_of_mem _ hx, Or.inl hc'⟩
        · exact ⟨x, List.mem_cons_of_mem _ hx, Or.inr ⟨List.mem_cons_of_mem _ hr, hne⟩⟩
      · rintro ⟨x, hx, hcase⟩
        rcases List.mem_cons.mp hx with rfl | hx'
        · rcases hcase with hc | ⟨hr, hne⟩
          · exact absurd hc hin
          · have hr' : -x ∈ rest := by
              rcases List.mem_cons.mp hr with h | h
              · exact absurd h.symm hne
              · exact h
            refine ⟨-x, hr', Or.inl ?_⟩
            rw [neg_neg]
            exact List.mem_cons_self _ _
        · rcases hcase with hc | ⟨hr, hne⟩
          · exact ⟨x, hx', Or.inl (List.mem_cons_of_mem _ hc)⟩
          · rcases List.mem_cons.mp hr with h | h
            · exact ⟨x, hx', Or.inl (by rw [h]; exact List.mem_cons_self _ _)⟩
            · exact ⟨x, hx', Or.inr ⟨h, hne⟩⟩

/-! Claim theorems. -/

/-- C2: for all literal lists `C1`, `C2` and a pivot `ℓ ∈ C1` with
`¬ℓ ∈ C2`, `resolve` returns `none` exactly when the set
`(C1 ∪ C2) \ {ℓ, ¬ℓ}` contains some literal together with its negation;
otherwise it returns a duplicate-free vector whose underlying set is
`(C1 ∪ C2) \ {ℓ, ¬ℓ}`. -/
theorem resolve_spec (l1 l2 : List Int) (lit : Int)
    (h0 : ∀ x ∈ l1 ++ l2, x ≠ 0) (_hp : lit ∈ l1) (_hn : -lit ∈ l2) :
    (resolve l1 l2 lit = none ↔
      ∃ x, ((x ∈ l1 ∨ x ∈ l2) ∧ x ≠ lit ∧ x ≠ -lit) ∧
        ((-x ∈ l1 ∨ -x ∈ l2) ∧ -x ≠ lit ∧ -x ≠ -lit)) ∧
    (∀ v, resolve l1 l2 lit = some v →
      v.Nodup ∧ ∀ x, x ∈ v ↔ (x ∈ l1 ∨ x ∈ l2) ∧ x ≠ lit ∧ x ≠ -lit) := by
  have mem_s : ∀ x, x ∈ ((dedupKeepFirst (l1 ++ l2) []).filter
      (fun x => x != lit && x != -lit)) ↔ (x ∈ l1 ∨ x ∈ l2) ∧ x ≠ lit ∧ x ≠ -lit := by
    intro x
    rw [List.mem_filter, mem_dedupKeepFirst]
    simp only [List.mem_append, List.not_mem_nil, not_false_iff, and_true,
      Bool.and_eq_true, bne_iff_ne, ne_eq]
  have nodup_s : ((dedupKeepFirst (l1 ++ l2) []).filter
      (fun x => x != lit && x != -lit)).Nodup :=
    List.Nodup.filter _ (nodup_dedupKeepFirst _ _)
  have hinv : checkInvalid ((dedupKeepFirst (l1 ++ l2) []).filter
      (fun x => x != lit && x != -lit)) [] = true ↔
      ∃ x, ((x ∈ l1 ∨ x ∈ l2) ∧ x ≠ lit ∧ x ≠ -lit) ∧
        ((-x ∈ l1 ∨ -x ∈ l2) ∧ -x ≠ lit ∧ -x ≠ -lit) := by
    rw [checkInvalid_iff _ _ nodup_s]
    constructor
    · rintro ⟨x, hx, hc⟩
      rcases hc with hc | ⟨hr, _⟩
      · simp at hc
      · exact ⟨x, (mem_s x).mp hx, (mem_s (-x)).mp hr⟩
    · rintro ⟨x, hx, hnx⟩
      refine ⟨x, (mem_s x).mpr hx, Or.inr ⟨(mem_s (-x)).mpr hnx, ?_⟩⟩
      intro heq
      have hx0 : x ≠ 0 := fun h => by
        rcases hx with ⟨hm, hl, _⟩
        exact h0 x (List.mem_append.mpr hm) h
      omega
  constructor
  · rw [resolve]
    constructor
    · intro h
      by_cases hc : checkInvalid ((dedupKeepFirst (l1 ++ l2) []).filter
          (fun x => x != lit && x != -lit)) [] = true
      · exact hinv.mp hc
      · rw [if_neg hc] at h
        exact absurd h (by simp)
    · intro h
      rw [if_pos (hinv.mpr h)]
  · intro v hv
    rw [resolve] at hv
    by_cases hc : checkInvalid ((dedupKeepFirst (l1 ++ l2) []).filter
        (fun x => x != lit && x != -lit)) [] = true
    · rw [if_pos hc] at hv; exact absurd hv (by simp)
    · rw [if_neg hc] at hv
      have := Option.some.inj hv
      subst this
      exact ⟨nodup_s, mem_s⟩

/-- Witness for C2: at `C1 = [1, 2, 3]`, `C2 = [-1, -2, 3]`, pivot `1`,
the resolvent would contain `2` and `-2`, and `resolve` indeed returns
`none`. -/
theorem resolve_spec_witness : resolve [1, 2, 3] [-1, -2, 3] 1 = none :=
  ((resolve_spec [1, 2, 3] [-1, -2, 3] 1 (by decide) (by decide) (by decide)).1).mpr
    ⟨2, by decide⟩

/-- C6: with `constant = 1`, the restart thresholds computed by
`update_conflicts_until_restart` for `restart_count = 1..15` are the
Luby values `1,1,2,1,1,2,4,1,1,2,1,1,2,4,8`. -/
theorem luby_thresholds_one_to_fifteen :
    update_conflicts_until_restart 1 8 1 = some 1 ∧
    update_conflicts_until_restart 1 8 2 = some 1 ∧
    update_conflicts_until_restart 1 8 3 = some 2 ∧
    update_conflicts_until_restart 1 8 4 = some 1 ∧
    update_conflicts_until_restart 1 8 5 = some 1 ∧
    update_conflicts_until_restart 1 8 6 = some 2 ∧
    update_conflicts_until_restart 1 8 7 = some 4 ∧
    update_conflicts_until_restart 1 8 8 = some 1 ∧
    update_conflicts_until_restart 1 8 9 = some 1 ∧
    update_conflicts_until_restart 1 8 10 = some 2 ∧
    update_conflicts_until_restart 1 8 11 = some 1 ∧
    update_conflicts_until_restart 1 8 12 = some 1 ∧
    update_conflicts_until_restart 1 8 13 = some 2 ∧
    update_conflicts_until_restart 1 8 14 = some 4 ∧
    update_conflicts_until_restart 1 8 15 = some 8 := by
  decide

/-- C10: the Ordered `select_literal` returns without panicking exactly
when some quantifier of the prefix occurs, in either polarity, in the
clause-reference index; in that case it returns the outermost such
quantifier's literal and kind, with that quantifier and every vacuous
quantifier before it removed from the prefix. -/
theorem select_literal_ordered_spec (ql : List Quantifier) (refs : List (Int × Int)) :
    ((select_literal ql refs).isSome = true ↔
      ∃ q ∈ ql, mmContainsKey refs q.literal = true ∨
        mmContainsKey refs (-q.literal) = true) ∧
    (∀ lit qt rest, select_literal ql refs = some (lit, qt, rest) →
      ∃ pre q, ql = pre ++ q :: rest ∧
        (∀ p ∈ pre, mmContainsKey refs p.literal = false ∧
          mmContainsKey refs (-p.literal) = false) ∧
        (mmContainsKey refs q.literal = true ∨ mmContainsKey refs (-q.literal) = true) ∧
        lit = q.literal ∧ qt = q.q_type) := by
  induction ql with
  | nil =>
    refine ⟨by simp [select_literal], ?_⟩
    intro lit qt rest h
    simp [select_literal] at h
  | cons q rest ih =>
    by_cases hq : (mmContainsKey refs q.literal || mmContainsKey refs (-q.literal)) = true
    · have hsel : select_literal (q :: rest) refs = some (q.literal, q.q_type, rest) := by
        unfold select_literal
        rw [if_pos hq]
      have hocc : mmContainsKey refs q.literal = true ∨
          mmContainsKey refs (-q.literal) = true :=
        Bool.or_eq_true _ _ |>.mp hq
      constructor
      · rw [hsel]
        simp only [Option.isSome_some, true_iff]
        exact ⟨q, List.mem_cons_self _ _, hocc⟩
      · intro lit qt rest' h
        rw [hsel] at h
        obtain ⟨h1, h2, h3⟩ : q.literal = lit ∧ q.q_type = qt ∧ rest = rest' := by
          have := Option.some.inj h
          exact ⟨congrArg Prod.fst this, congrArg Prod.fst (congrArg Prod.snd this),
            congrArg Prod.snd (congrArg Prod.snd this)⟩
        subst h1; subst h2; subst h3
        exact ⟨[], q, rfl, by intro p hp; simp at hp, hocc, rfl, rfl⟩
    · have hq' : (mmContainsKey refs q.literal || mmContainsKey refs (-q.literal)) = false :=
        Bool.eq_false_iff.mpr hq
      obtain ⟨hqa, hqb⟩ : mmContainsKey refs q.literal = false ∧
          mmContainsKey refs (-q.literal) = false := by
        simpa using hq'
      have hsel : select_literal (q :: rest) refs = select_literal rest refs := by
        simp only [select_literal]
        rw [if_neg hq]
      constructor
      · rw [hsel, ih.1]
        constructor
        · rintro ⟨q', hmem, hocc⟩
          exact ⟨q', List.mem_cons_of_mem _ hmem, hocc⟩
        · rintro ⟨q', hmem, hocc⟩
          rcases List.mem_cons.mp hmem with h | h
          · subst h
            rcases hocc with h1 | h1
            · rw [hqa] at h1; exact absurd h1 (by simp)
            · rw [hqb] at h1; exact absurd h1 (by simp)
          · exact ⟨q', h, hocc⟩
      · intro lit qt rest' h
        rw [hsel] at h
        obtain ⟨pre, q', heq, hpre, hocc, h1, h2⟩ := ih.2 lit qt rest' h
        exact ⟨q :: pre, q', by rw [heq]; rfl, by
          intro p hp
          rcases List.mem_cons.mp hp with h | h
          · subst h; exact ⟨hqa, hqb⟩
          · exact hpre p h, hocc, h1, h2⟩

/-- Witness for C10: on the prefix `∀2 ∃1` with only variable 1 indexed,
`select_literal` removes the vacuous `∀2`, returns literal 1 as
existential, and leaves the empty prefix. -/
theorem select_literal_ordered_spec_witness :
    ∃ pre q,
      ([⟨QuantifierType.Universal, 2, 1⟩, ⟨QuantifierType.Existential, 1, 2⟩] :
          List Quantifier) = pre ++ q :: ([] : List Quantifier) ∧
      (∀ p ∈ pre, mmContainsKey [((1 : Int), (0 : Int))] p.literal = false ∧
        mmContainsKey [((1 : Int), (0 : Int))] (-p.literal) = false) ∧
      (mmContainsKey [((1 : Int), (0 : Int))] q.literal = true ∨
        mmContainsKey [((1 : Int), (0 : Int))] (-q.literal) = true) ∧
      (1 : Int) = q.literal ∧ QuantifierType.Existential = q.q_type :=
  (select_literal_ordered_spec
    [⟨QuantifierType.Universal, 2, 1⟩, ⟨QuantifierType.Existential, 1, 2⟩]
    [((1 : Int), (0 : Int))]).2 1 QuantifierType.Existential [] (by decide)


theorem detectLoop_of_no_existentials (vq : List (Int × Variable)) (clause : Clause)
    (he : clause.e_literals = []) :
    ∀ (l : List Int) (acc : List Int), l ≠ [] →
      detectLoop vq clause l acc = acc ++ clause.a_literals := by
  intro l acc hl
  cases l with
  | nil => exact absurd rfl hl
  | cons a rest => rw [detectLoop, if_pos he]

theorem detectLoop_takeWhile (vq : List (Int × Variable)) (clause : Clause)
    (he : clause.e_literals ≠ [])
    (hme : HasMeta vq (clause.e_literals.getLastD 0)) :
    ∀ (l : List Int) (acc : List Int), (∀ x ∈ l, HasMeta vq x) →
      detectLoop vq clause l acc = acc ++ l.takeWhile
        (fun a => decide (metaLevel vq (clause.e_literals.getLastD 0) < metaLevel vq a)) := by
  intro l
  induction l with
  | nil => intro acc _; simp [detectLoop]
  | cons a rest ih =>
    intro acc hml
    rw [detectLoop, if_neg he]
    obtain ⟨av, hav⟩ := Option.isSome_iff_exists.mp (hml a (List.mem_cons_self _ _))
    obtain ⟨ev, hev⟩ := Option.isSome_iff_exists.mp hme
    rw [hav, hev]
    dsimp only
    have hlv_a : metaLevel vq a = av.q_level := by
      rw [metaLevel, hav]; rfl
    have hlv_e : metaLevel vq (clause.e_literals.getLastD 0) = ev.q_level := by
      rw [metaLevel, hev]; rfl
    by_cases hlt : ev.q_level < av.q_level
    · rw [if_pos hlt, ih (acc ++ [a]) (fun x hx => hml x (List.mem_cons_of_mem _ hx))]
      rw [List.takeWhile_cons]
      rw [if_pos (by rw [hlv_a, hlv_e]; exact decide_eq_true hlt)]
      simp
    · rw [if_neg hlt, List.takeWhile_cons,
        if_neg (by rw [hlv_a, hlv_e]; simpa using hlt)]
      simp

theorem mem_takeWhile_of_antitone (lvl : Int → Int) (c : Int) :
    ∀ l : List Int, l.Pairwise (fun a b => lvl b ≤ lvl a) →
      ∀ x, (x ∈ l.takeWhile (fun a => decide (c < lvl a)) ↔ x ∈ l ∧ c < lvl x) := by
  intro l
  induction l with
  | nil => intro _ x; simp
  | cons a rest ih =>
    intro hp x
    obtain ⟨ha, hrest⟩ := List.pairwise_cons.mp hp
    rw [List.takeWhile_cons]
    by_cases hc : c < lvl a
    · rw [if_pos (decide_eq_true hc)]
      constructor
      · intro hm
        rcases List.mem_cons.mp hm with rfl | hm'
        · exact ⟨List.mem_cons_self _ _, hc⟩
        · obtain ⟨h1, h2⟩ := (ih hrest x).mp hm'
          exact ⟨List.mem_cons_of_mem _ h1, h2⟩
      · rintro ⟨hm, hcx⟩
        rcases List.mem_cons.mp hm with rfl | hm'
        · exact List.mem_cons_self _ _
        · exact List.mem_cons_of_mem _ ((ih hrest x).mpr ⟨hm', hcx⟩)
    · rw [if_neg (by simpa using hc)]
      constructor
      · intro hm; simp at hm
      · rintro ⟨hm, hcx⟩
        rcases List.mem_cons.mp hm with rfl | hm'
        · exact absurd hcx hc
        · exact absurd (lt_of_lt_of_le hcx (ha x hm')) hc

theorem le_metaLevel_getLastD (vq : List (Int × Variable)) :
    ∀ l : List Int, l.Pairwise (fun a b => metaLevel vq a ≤ metaLevel vq b) →
      ∀ x ∈ l, metaLevel vq x ≤ metaLevel vq (l.getLastD 0) := by
  intro l
  induction l with
  | nil => intro _ x hx; simp at hx
  | cons a rest ih =>
    intro hp x hx
    obtain ⟨ha, hrest⟩ := List.pairwise_cons.mp hp
    cases rest with
    | nil =>
      rcases List.mem_cons.mp hx with rfl | hx'
      · simp
      · simp at hx'
    | cons b t =>
      have hlast : (a :: b :: t).getLastD 0 = (b :: t).getLastD 0 := by
        simp [List.getLastD]
      rw [hlast]
      rcases List.mem_cons.mp hx with rfl | hx'
      · have hmem : (b :: t).getLastD 0 ∈ b :: t := by
          have : (b :: t).getLastD 0 = (b :: t).getLast (by simp) := by
            rw [List.getLastD_eq_getLast?]
            rw [List.getLast?_eq_getLast _ (by simp)]
            rfl
          rw [this]
          exact List.getLast_mem _
        exact ha _ hmem
      · exact ih hrest x hx'

theorem getLastD_mem_of_ne_nil (l : List Int) (hl : l ≠ []) : l.getLastD 0 ∈ l := by
  have : l.getLastD 0 = l.getLast hl := by
    rw [List.getLastD_eq_getLast?, List.getLast?_eq_getLast _ hl]
    rfl
  rw [this]
  exact List.getLast_mem _

/-- C3: for a clause whose sublists are sorted in quantifier-prefix
order and whose variables all carry quantification metadata,
`detect_universal_literal` returns exactly the universal literals `u`
with `q_level(e) < q_level(u)` for every existential literal `e` of the
clause; with no existential literals it returns all universal literals,
and removing them empties the universal sublist. -/
theorem detect_universal_literal_spec (clause : Clause) (vq : List (Int × Variable))
    (hmE : ∀ x ∈ clause.e_literals, HasMeta vq x)
    (hmA : ∀ x ∈ clause.a_literals, HasMeta vq x)
    (hsE : PrefixSorted vq clause.e_literals)
    (hsA : PrefixSorted vq clause.a_literals) :
    (∀ u, u ∈ detect_universal_literal clause vq ↔
      u ∈ clause.a_literals ∧
        ∀ e ∈ clause.e_literals, metaLevel vq e < metaLevel vq u) ∧
    (clause.e_literals = [] →
      detect_universal_literal clause vq = clause.a_literals ∧
      (clause.remove_a_literals (detect_universal_literal clause vq)).a_literals = []) := by
  by_cases he : clause.e_literals = []
  · have hd : detect_universal_literal clause vq = clause.a_literals := by
      rw [detect_universal_literal]
      cases ha : clause.a_literals with
      | nil => rfl
      | cons b t =>
        rw [detectLoop_of_no_existentials vq clause he _ [] (by simp)]
        rw [ha]
        rfl
    refine ⟨?_, fun _ => ⟨hd, ?_⟩⟩
    · intro u
      rw [hd, he]
      simp
    · rw [hd, Clause.remove_a_literals]
      simp only [List.filter_eq_nil_iff]
      intro x hx
      simp [hx]
  · have hme : HasMeta vq (clause.e_literals.getLastD 0) :=
      hmE _ (getLastD_mem_of_ne_nil _ he)
    have hd : detect_universal_literal clause vq = clause.a_literals.reverse.takeWhile
        (fun a => decide (metaLevel vq (clause.e_literals.getLastD 0) < metaLevel vq a)) := by
      rw [detect_universal_literal,
        detectLoop_takeWhile vq clause he hme _ []
          (fun x hx => hmA x (List.mem_reverse.mp hx))]
      rfl
    have hrev : clause.a_literals.reverse.Pairwise
        (fun a b => metaLevel vq b ≤ metaLevel vq a) := by
      rw [List.pairwise_reverse]
      exact hsA
    refine ⟨?_, fun hcon => absurd hcon he⟩
    intro u
    rw [hd, mem_takeWhile_of_antitone _ _ _ hrev, List.mem_reverse]
    constructor
    · rintro ⟨hu, hlt⟩
      refine ⟨hu, fun e hee => lt_of_le_of_lt ?_ hlt⟩
      exact le_metaLevel_getLastD vq _ hsE e hee
    · rintro ⟨hu, hall⟩
      exact ⟨hu, hall _ (getLastD_mem_of_ne_nil _ he)⟩


/-- Witness for C3: on the clause `∃1 ∨ ∀2` with `q_level(1) = 1 <
2 = q_level(2)`, the universal literal 2 is detected as removable. -/
theorem detect_universal_literal_spec_witness :
    2 ∈ detect_universal_literal ⟨[1], [2], false⟩
        [((1 : Int), ⟨QuantifierType.Existential, 1, 1⟩),
         ((2 : Int), ⟨QuantifierType.Universal, 2, 2⟩)] ↔
      2 ∈ ([2] : List Int) ∧
        ∀ e ∈ ([1] : List Int),
          metaLevel [((1 : Int), ⟨QuantifierType.Existential, 1, 1⟩),
            ((2 : Int), ⟨QuantifierType.Universal, 2, 2⟩)] e <
          metaLevel [((1 : Int), ⟨QuantifierType.Existential, 1, 1⟩),
            ((2 : Int), ⟨QuantifierType.Universal, 2, 2⟩)] 2 :=
  (detect_universal_literal_spec ⟨[1], [2], false⟩
    [((1 : Int), ⟨QuantifierType.Existential, 1, 1⟩),
     ((2 : Int), ⟨QuantifierType.Universal, 2, 2⟩)]
    (by unfold HasMeta; decide) (by unfold HasMeta; decide)
    (by unfold PrefixSorted; decide) (by unfold PrefixSorted; decide)).1 2


theorem length_insertSorted (le : Int → Int → Bool) (x : Int) :
    ∀ l : List Int, (insertSorted le x l).length = l.length + 1 := by
  intro l
  induction l with
  | nil => rfl
  | cons y ys ih =>
    rw [insertSorted]
    by_cases h : le y x = true
    · rw [if_pos h]
      simp [ih]
    · rw [if_neg h]
      simp

theorem length_stableSortBy (le : Int → Int → Bool) :
    ∀ (l acc : List Int),
      (l.foldl (fun acc x => insertSorted le x acc) acc).length = acc.length + l.length := by
  intro l
  induction l with
  | nil => intro acc; simp
  | cons y ys ih =>
    intro acc
    rw [List.foldl_cons, ih, length_insertSorted, List.length_cons]
    omega

theorem length_sort_literals_order (sort_order l : List Int) :
    (sort_literals_order sort_order l).length = l.length := by
  rw [sort_literals_order, stableSortBy, length_stableSortBy]
  simp

theorem convertLoop_length (vq : List (Int × Variable)) :
    ∀ (l es as_ es2 as2 : List Int), convertLoop vq l es as_ = some (es2, as2) →
      es2.length + as2.length = es.length + as_.length + l.length := by
  intro l
  induction l with
  | nil =>
    intro es as_ es2 as2 h
    rw [convertLoop] at h
    have := Option.some.inj h
    injection this with h1 h2
    subst h1; subst h2
    simp
  | cons x rest ih =>
    intro es as_ es2 as2 h
    rw [convertLoop] at h
    cases hv : mmGet vq (intAbs x) with
    | none => rw [hv] at h; exact absurd h (by simp)
    | some v =>
      rw [hv] at h
      dsimp only at h
      by_cases hq : v.q_type = QuantifierType.Existential
      · rw [if_pos hq] at h
        have := ih _ _ _ _ h
        simp only [List.length_append, List.length_cons, List.length_nil] at this ⊢
        omega
      · rw [if_neg hq] at h
        have := ih _ _ _ _ h
        simp only [List.length_append, List.length_cons, List.length_nil] at this ⊢
        omega

theorem convert_length (vq : List (Int × Variable)) (qorder : QuantificationOrder)
    (w : List Int) (c : Clause) (h : convert_literals_to_clause vq qorder w = some c) :
    c.get_clause_length = w.length := by
  rw [convert_literals_to_clause] at h
  cases hcl : convertLoop vq w [] [] with
  | none => rw [hcl] at h; exact absurd h (by simp)
  | some p =>
    rw [hcl] at h
    obtain ⟨es2, as2⟩ := p
    have hc := Option.some.inj h
    have hlen := convertLoop_length vq w [] [] es2 as2 hcl
    simp only [List.length_nil] at hlen
    rw [← hc]
    rw [Clause.get_clause_length]
    simp only
    rw [length_sort_literals_order, length_sort_literals_order]
    omega

theorem backtrackFold_eq (m : CDCLMatrix) (hlvl : Int) :
    ∀ (l : List Int) (acc : Int),
      (∀ x ∈ l, (mmGet m.assignments (intAbs x)).isSome = true) →
      backtrackFold m hlvl l acc =
        some (List.foldl max acc
          (((l.map (assignedLevel m)).filter (fun d => d ≠ hlvl)))) := by
  intro l
  induction l with
  | nil => intro acc _; simp [backtrackFold]
  | cons x rest ih =>
    intro acc hpres
    obtain ⟨a, ha⟩ := Option.isSome_iff_exists.mp (hpres x (List.mem_cons_self _ _))
    rw [backtrackFold, ha]
    dsimp only
    have hal : assignedLevel m x = a.decision_level := by
      rw [assignedLevel, ha]; rfl
    by_cases hd : a.decision_level = hlvl
    · rw [if_pos hd, ih acc (fun y hy => hpres y (List.mem_cons_of_mem _ hy))]
      rw [List.map_cons, List.filter_cons]
      rw [hal, hd]
      simp
    · rw [if_neg hd, ih (max acc a.decision_level)
        (fun y hy => hpres y (List.mem_cons_of_mem _ hy))]
      rw [List.map_cons, List.filter_cons, hal]
      rw [if_pos (by simpa using hd)]
      simp

theorem foldl_max_neg_one (d : Int) (ds : List Int) (hd : 0 ≤ d) :
    List.foldl max (-1) (d :: ds) = List.foldl max d ds := by
  rw [List.foldl_cons]
  congr 1
  omega

theorem le_foldl_max : ∀ (ds : List Int) (d : Int), d ≤ List.foldl max d ds := by
  intro ds
  induction ds with
  | nil => intro d; simp
  | cons e t ih =>
    intro d
    rw [List.foldl_cons]
    exact le_trans (le_max_left d e) (ih _)


/-- C4: when conflict analysis stops, the backjump level computed by
`calculate_backtrack_level` equals the maximum decision level among
working-clause literals not at the highest decision level, or
`highest − 1` when that set is empty, bumped to 1 when the clause has
more than one literal and the value is 0; and a learned clause with
exactly one literal makes `analyse_conflict` return backjump level 0. -/
theorem backjump_level_spec :
    (∀ (m : CDCLMatrix) (literals : List Int) (hlvl : Int),
      (∀ x ∈ literals, (mmGet m.assignments (intAbs x)).isSome = true) →
      (∀ x ∈ literals, 0 ≤ assignedLevel m x) →
      calculate_backtrack_level m literals hlvl =
        some (specBacktrackLevel (literals.map (assignedLevel m)) hlvl literals.length)) ∧
    (∀ (m : CDCLMatrix) (c : Clause) (bt : Int),
      analyse_conflict m = some (c, bt) → c.get_clause_length = 1 → bt = 0) := by
  constructor
  · intro m literals hlvl hpres hpos
    rw [calculate_backtrack_level, backtrackFold_eq m hlvl literals (-1) hpres]
    dsimp only
    rw [specBacktrackLevel]
    have hlenmap : (literals.map (assignedLevel m)).length = literals.length :=
      List.length_map _ _
    cases hs : (literals.map (assignedLevel m)).filter (fun d => d ≠ hlvl) with
    | nil => rfl
    | cons d ds =>
      have hdmem : d ∈ (literals.map (assignedLevel m)).filter (fun d => d ≠ hlvl) := by
        rw [hs]; exact List.mem_cons_self _ _
      have hd0 : 0 ≤ d := by
        have := List.mem_filter.mp hdmem
        obtain ⟨x, hx, hxd⟩ := List.mem_map.mp this.1
        rw [← hxd]
        exact hpos x hx
      rw [foldl_max_neg_one d ds hd0]
      have hM : 0 ≤ List.foldl max d ds := le_trans hd0 (le_foldl_max ds d)
      have hinner : (if List.foldl max d ds = -1 then hlvl - 1 else List.foldl max d ds) =
          List.foldl max d ds := if_neg (by omega)
      rw [hinner]
  · intro m c bt h hlen
    rw [analyse_conflict] at h
    cases hcc : m.conflict_clause with
    | none =>
      rw [hcc] at h
      dsimp only at h
      have := Option.some.inj h
      injection this with h1 h2
      rw [← h1] at hlen
      exact absurd hlen (by decide)
    | some conflict =>
      rw [hcc] at h
      dsimp only at h
      cases hal : analyseLoop m m.trail.reverse conflict.get_literal_list with
      | none => rw [hal] at h; exact absurd h (by simp)
      | some r =>
        rw [hal] at h
        cases r with
        | unsat =>
          dsimp only at h
          have := Option.some.inj h
          injection this with h1 h2
          rw [← h1] at hlen
          exact absurd hlen (by decide)
        | stopped w bt0 =>
          dsimp only at h
          cases hcv : convert_literals_to_clause m.core_data.variable_quantification
              m.core_data.quantification_order w with
          | none => rw [hcv] at h; exact absurd h (by simp)
          | some c2 =>
            rw [hcv] at h
            have := Option.some.inj h
            injection this with h1 h2
            have hw : w.length = 1 := by
              rw [← convert_length _ _ _ _ hcv, h1]
              exact hlen
            rw [← h2, if_pos hw]

/-- Witness for C4: a two-literal working clause assigned at levels 1
and 2 with highest level 2 backjumps to level 1, and a concrete
`analyse_conflict` run returning the unit clause `[1]` reports level 0. -/
theorem backjump_level_spec_witness :
    calculate_backtrack_level
      { cdclBase with assignments := [((1 : Int), ⟨1, 1, none⟩), ((2 : Int), ⟨2, 2, none⟩)] }
      [1, 2] 2 =
      some (specBacktrackLevel
        (List.map
          (assignedLevel
            { cdclBase with
              assignments := [((1 : Int), ⟨1, 1, none⟩), ((2 : Int), ⟨2, 2, none⟩)] })
          [1, 2]) 2 ([1, 2] : List Int).length) ∧
    (0 : Int) = 0 :=
  ⟨backjump_level_spec.1
    { cdclBase with assignments := [((1 : Int), ⟨1, 1, none⟩), ((2 : Int), ⟨2, 2, none⟩)] }
    [1, 2] 2 (by decide) (by decide),
   backjump_level_spec.2
    { cdclBase with
      core_data :=
        { matrixEmpty with
          variable_quantification := [((1 : Int), ⟨QuantifierType.Existential, 1, 1⟩)],
          quantification_order :=
            { existential_literal_order := [1], universal_literal_order := [] } },
      conflict_clause := some ⟨[1], [], false⟩,
      assignments := [((1 : Int), ⟨1, 0, none⟩)] }
    ⟨[1], [], false⟩ 0 (by decide) (by decide)⟩


theorem preResInner_counts (clause_list : List Clause) (vq : List (Int × Variable))
    (qorder : QuantificationOrder) (lit : Int) (cap repeat_above : Nat)
    (clause_1 : Clause) :
    ∀ (n_refs : List Int) (st0 st : PreResState),
      preResInner clause_list vq qorder lit cap repeat_above clause_1 n_refs st0 = some st →
      ∃ new, st.resolved_clauses = st0.resolved_clauses ++ new ∧
        st.resolved_clauses_for_literal = st0.resolved_clauses_for_literal + new.length := by
  intro n_refs
  induction n_refs with
  | nil =>
    intro st0 st h
    rw [preResInner] at h
    have := Option.some.inj h
    subst this
    exact ⟨[], by simp, by simp⟩
  | cons n rest ih =>
    intro st0 st h
    rw [preResInner] at h
    by_cases hn : n < 0
    · rw [if_pos hn] at h; exact absurd h (by simp)
    · rw [if_neg hn] at h
      cases hc2 : clause_list.get? n.toNat with
      | none => rw [hc2] at h; exact absurd h (by simp)
      | some clause_2 =>
        rw [hc2] at h
        dsimp only at h
        cases hres : resolve clause_1.get_literal_list clause_2.get_literal_list lit with
        | none =>
          rw [hres] at h
          exact ih st0 st h
        | some resolved_literals =>
          rw [hres] at h
          dsimp only at h
          cases hcv : convert_literals_to_clause vq qorder resolved_literals with
          | none => rw [hcv] at h; exact absurd h (by simp)
          | some rc =>
            rw [hcv] at h
            dsimp only at h
            by_cases hmem : rc ∈ st0.hashtable
            · rw [if_pos hmem] at h
              exact ih st0 st h
            · rw [if_neg hmem] at h
              by_cases hlong : resolved_literals.length > repeat_above
              · rw [if_pos hlong] at h
                obtain ⟨new, h1, h2⟩ := ih _ st h
                refine ⟨rc :: new, ?_, ?_⟩
                · rw [h1]; simp
                · rw [h2]; simp; omega
              · rw [if_neg hlong] at h
                by_cases hcap : cap ≤ st0.resolved_clauses_for_literal + 1
                · rw [if_pos hcap] at h
                  have := Option.some.inj h
                  subst this
                  exact ⟨[rc], by simp, by simp⟩
                · rw [if_neg hcap] at h
                  obtain ⟨new, h1, h2⟩ := ih _ st h
                  refine ⟨rc :: new, ?_, ?_⟩
                  · rw [h1]; simp
                  · rw [h2]; simp; omega

theorem preResOuter_counts (clause_list : List Clause) (vq : List (Int × Variable))
    (qorder : QuantificationOrder) (lit : Int) (cap repeat_above : Nat)
    (neg_refs : List Int) :
    ∀ (pos_refs : List Int) (st0 st : PreResState),
      preResOuter clause_list vq qorder lit cap repeat_above neg_refs pos_refs st0 = some st →
      ∃ new, st.resolved_clauses = st0.resolved_clauses ++ new ∧
        st.resolved_clauses_for_literal = st0.resolved_clauses_for_literal + new.length := by
  intro pos_refs
  induction pos_refs with
  | nil =>
    intro st0 st h
    rw [preResOuter] at h
    have := Option.some.inj h
    subst this
    exact ⟨[], by simp, by simp⟩
  | cons p rest ih =>
    intro st0 st h
    rw [preResOuter] at h
    by_cases hp : p < 0
    · rw [if_pos hp] at h; exact absurd h (by simp)
    · rw [if_neg hp] at h
      cases hc1 : clause_list.get? p.toNat with
      | none => rw [hc1] at h; exact absurd h (by simp)
      | some clause_1 =>
        rw [hc1] at h
        dsimp only at h
        cases hinner : preResInner clause_list vq qorder lit cap repeat_above clause_1
            neg_refs st0 with
        | none => rw [hinner] at h; exact absurd h (by simp)
        | some st2 =>
          rw [hinner] at h
          dsimp only at h
          obtain ⟨new1, ha1, ha2⟩ :=
            preResInner_counts clause_list vq qorder lit cap repeat_above clause_1
              neg_refs st0 st2 hinner
          by_cases hcap : cap ≤ st2.resolved_clauses_for_literal
          · rw [if_pos hcap] at h
            have := Option.some.inj h
            subst this
            exact ⟨new1, ha1, ha2⟩
          · rw [if_neg hcap] at h
            obtain ⟨new2, hb1, hb2⟩ := ih st2 st h
            refine ⟨new1 ++ new2, ?_, ?_⟩
            · rw [hb1, ha1, List.append_assoc]
            · rw [hb2, ha2, List.length_append]; omega

/-- Counterexample for C7: with per-literal cap 1 and `repeat_above = 2`,
the single accepted resolvent `2∨3` has length `≤ repeat_above`, yet the
per-literal counter ends at 1 (not the 0 the claim predicts, since no
accepted resolvent is longer than `repeat_above`), and the cap it
consumed blocks the second available resolvent `2∨4`. -/
theorem pre_resolution_short_resolvents_consume_cap :
    preResOuter preResClauses preResVq preResOrder 1 1 2 [1, 2] [0]
        ⟨preResClauses, [], 0⟩ =
      some ⟨preResClauses ++ [⟨[2, 3], [], false⟩], [⟨[2, 3], [], false⟩], 1⟩ ∧
    (∀ c ∈ [(⟨[2, 3], [], false⟩ : Clause)], c.get_clause_length ≤ 2) ∧
    (List.filter (fun c => decide (2 < c.get_clause_length))
      [(⟨[2, 3], [], false⟩ : Clause)]).length = 0 ∧
    (1 : Nat) ≠ 0 := by
  decide

/-- C7 (amended): every accepted resolvent, regardless of length,
increments the per-literal counter compared against the cap; the cap
check is only performed right after accepting a resolvent of length at
most `repeat_above`, so accepted longer resolvents can push the counter
past the cap without breaking (second conjunct: with cap 1 and
`repeat_above = 1`, both length-2 resolvents are accepted and the
counter reaches 2). -/
theorem pre_resolution_cap_counting :
    (∀ (clause_list : List Clause) (vq : List (Int × Variable))
       (qorder : QuantificationOrder) (lit : Int) (cap repeat_above : Nat)
       (neg_refs pos_refs : List Int) (st0 st : PreResState),
      preResOuter clause_list vq qorder lit cap repeat_above neg_refs pos_refs st0 =
        some st →
      ∃ new, st.resolved_clauses = st0.resolved_clauses ++ new ∧
        st.resolved_clauses_for_literal =
          st0.resolved_clauses_for_literal + new.length) ∧
    preResOuter preResClauses preResVq preResOrder 1 1 1 [1, 2] [0]
        ⟨preResClauses, [], 0⟩ =
      some ⟨preResClauses ++ [⟨[2, 3], [], false⟩, ⟨[2, 4], [], false⟩],
            [⟨[2, 3], [], false⟩, ⟨[2, 4], [], false⟩], 2⟩ :=
  ⟨fun clause_list vq qorder lit cap repeat_above neg_refs pos_refs st0 st h =>
    preResOuter_counts clause_list vq qorder lit cap repeat_above neg_refs
      pos_refs st0 st h,
   by decide⟩

/-- Witness for C7 (amended): the counting invariant applied to the
concrete cap-1 run, whose one accepted resolvent raised the counter
from 0 to 1. -/
theorem pre_resolution_cap_counting_witness :
    ∃ new,
      (⟨preResClauses ++ [⟨[2, 3], [], false⟩], [⟨[2, 3], [], false⟩], 1⟩ :
          PreResState).resolved_clauses =
        (⟨preResClauses, [], 0⟩ : PreResState).resolved_clauses ++ new ∧
      (⟨preResClauses ++ [⟨[2, 3], [], false⟩], [⟨[2, 3], [], false⟩], 1⟩ :
          PreResState).resolved_clauses_for_literal =
        (⟨preResClauses, [], 0⟩ : PreResState).resolved_clauses_for_literal +
          new.length :=
  pre_resolution_cap_counting.1 preResClauses preResVq preResOrder 1 1 2 [1, 2] [0]
    ⟨preResClauses, [], 0⟩
    ⟨preResClauses ++ [⟨[2, 3], [], false⟩], [⟨[2, 3], [], false⟩], 1⟩
    (by decide)

theorem readdLoop_in_range :
    ∀ (refs : List Int) (m : CDCLMatrix),
      (∀ r ∈ refs, r ≤ (m.core_data.clause_set.clause_list.length : Int) - 1) →
      readdLoop refs m = some m := by
  intro refs
  induction refs with
  | nil => intro m _; rfl
  | cons r rest ih =>
    intro m hin
    rw [readdLoop]
    rw [if_neg (by
      have := hin r (List.mem_cons_self _ _)
      omega)]
    exact ih m (fun r' hr' => hin r' (List.mem_cons_of_mem _ hr'))


/-- Counterexample for C8: a `CDCLMatrix` whose `learned_clause_refs`
holds an index (1) beyond its one-clause `clause_list`; snapshotting and
restoring it (with `learned_clause_refs` unchanged) re-adds
`original_clause_list[1]`, so the restored clause set has 2 clauses, not
the snapshot's 1. -/
theorem snapshot_restore_counterexample :
    (restore_necessary_structures
        { cdclBase with
          core_data := { matrixEmpty with clause_set := ⟨[⟨[1], [], false⟩], 1⟩ },
          original_clause_list := [⟨[1], [], false⟩, ⟨[2], [], false⟩],
          learned_clause_refs := [1] }
        (cache_necessary_structures
          { cdclBase with
            core_data := { matrixEmpty with clause_set := ⟨[⟨[1], [], false⟩], 1⟩ },
            original_clause_list := [⟨[1], [], false⟩, ⟨[2], [], false⟩],
            learned_clause_refs := [1] })).map
      (fun m2 => m2.core_data.clause_set.clause_list.length) ≠
    some (1 : Nat) := by decide


/-- C8 (amended): snapshot then restore with `learned_clause_refs`
unchanged leaves the clause set, clause-reference index, quantifier
prefix, trail, assignment map, and decision level at their snapshot
values, provided every learned-clause reference points inside the
snapshot's clause list (as holds for solver-produced states). -/
theorem snapshot_restore_roundtrip (m mpost : CDCLMatrix)
    (href : mpost.learned_clause_refs = m.learned_clause_refs)
    (hin : ∀ r ∈ m.learned_clause_refs,
      r ≤ (m.core_data.clause_set.clause_list.length : Int) - 1) :
    ∃ m2, restore_necessary_structures mpost (cache_necessary_structures m) = some m2 ∧
      m2.core_data.clause_set = m.core_data.clause_set ∧
      m2.core_data.clause_references = m.core_data.clause_references ∧
      m2.core_data.quantifier_list = m.core_data.quantifier_list ∧
      m2.trail = m.trail ∧ m2.assignments = m.assignments ∧
      m2.decision_level = m.decision_level := by
  rw [restore_necessary_structures, readd_learned_clauses]
  refine ⟨_, readdLoop_in_range _ _ ?_, rfl, rfl, rfl, rfl, rfl, rfl⟩
  intro r hr
  have hr' : r ∈ m.learned_clause_refs := by
    rw [← href]; exact hr
  exact hin r hr'


/-- Witness for C8 (amended): a state whose single learned-clause
reference (0) lies inside its one-clause list restores to itself. -/
theorem snapshot_restore_roundtrip_witness :
    ∃ m2,
      restore_necessary_structures
          { cdclBase with
            core_data := { matrixEmpty with clause_set := ⟨[⟨[1], [], false⟩], 1⟩ },
            original_clause_list := [⟨[1], [], false⟩],
            learned_clause_refs := [0] }
          (cache_necessary_structures
            { cdclBase with
              core_data := { matrixEmpty with clause_set := ⟨[⟨[1], [], false⟩], 1⟩ },
              original_clause_list := [⟨[1], [], false⟩],
              learned_clause_refs := [0] }) = some m2 ∧
      m2.core_data.clause_set =
        ({ cdclBase with
            core_data := { matrixEmpty with clause_set := ⟨[⟨[1], [], false⟩], 1⟩ },
            original_clause_list := [⟨[1], [], false⟩],
            learned_clause_refs := [0] } : CDCLMatrix).core_data.clause_set ∧
      m2.core_data.clause_references =
        ({ cdclBase with
            core_data := { matrixEmpty with clause_set := ⟨[⟨[1], [], false⟩], 1⟩ },
            original_clause_list := [⟨[1], [], false⟩],
            learned_clause_refs := [0] } : CDCLMatrix).core_data.clause_references ∧
      m2.core_data.quantifier_list =
        ({ cdclBase with
            core_data := { matrixEmpty with clause_set := ⟨[⟨[1], [], false⟩], 1⟩ },
            original_clause_list := [⟨[1], [], false⟩],
            learned_clause_refs := [0] } : CDCLMatrix).core_data.quantifier_list ∧
      m2.trail =
        ({ cdclBase with
            core_data := { matrixEmpty with clause_set := ⟨[⟨[1], [], false⟩], 1⟩ },
            original_clause_list := [⟨[1], [], false⟩],
            learned_clause_refs := [0] } : CDCLMatrix).trail ∧
      m2.assignments =
        ({ cdclBase with
            core_data := { matrixEmpty with clause_set := ⟨[⟨[1], [], false⟩], 1⟩ },
            original_clause_list := [⟨[1], [], false⟩],
            learned_clause_refs := [0] } : CDCLMatrix).assignments ∧
      m2.decision_level =
        ({ cdclBase with
            core_data := { matrixEmpty with clause_set := ⟨[⟨[1], [], false⟩], 1⟩ },
            original_clause_list := [⟨[1], [], false⟩],
            learned_clause_refs := [0] } : CDCLMatrix).decision_level :=
  snapshot_restore_roundtrip
    { cdclBase with
      core_data := { matrixEmpty with clause_set := ⟨[⟨[1], [], false⟩], 1⟩ },
      original_clause_list := [⟨[1], [], false⟩],
      learned_clause_refs := [0] }
    { cdclBase with
      core_data := { matrixEmpty with clause_set := ⟨[⟨[1], [], false⟩], 1⟩ },
      original_clause_list := [⟨[1], [], false⟩],
      learned_clause_refs := [0] }
    rfl (by decide)


theorem upPosLoop_frame :
    ∀ (refs : List Int) (m r : CDCLMatrix) (b : Bool),
      upPosLoop refs m = some (r, b) →
      r.trail = m.trail ∧ r.assignments = m.assignments := by
  intro refs
  induction refs with
  | nil =>
    intro m r b h
    rw [upPosLoop] at h
    have := Option.some.inj h
    injection this with h1 h2
    subst h1
    exact ⟨rfl, rfl⟩
  | cons ci rest ih =>
    intro m r b h
    rw [upPosLoop] at h
    by_cases hci : ci < 0
    · rw [if_pos hci] at h; exact absurd h (by simp)
    · rw [if_neg hci] at h
      cases hcl : setClause m.core_data.clause_set.clause_list ci.toNat
          (fun c => { c with is_removed := true }) with
      | none => rw [hcl] at h; exact absurd h (by simp)
      | some cl =>
        rw [hcl] at h
        dsimp only at h
        by_cases hes : ClauseSet.contains_empty_set
            { clause_list := cl, clause_count := m.core_data.clause_set.clause_count - 1 }
        · rw [if_pos hes] at h
          have := Option.some.inj h
          injection this with h1 h2
          subst h1
          exact ⟨rfl, rfl⟩
        · rw [if_neg hes] at h
          have h2 := ih _ r b h
          exact ⟨h2.1, h2.2⟩

theorem upReductionStep_frame (m : CDCLMatrix) (ci : Int) (r : CDCLMatrix) (b : Bool)
    (h : upReductionStep m ci = some (r, b)) :
    r.trail = m.trail ∧ r.assignments = m.assignments := by
  rw [upReductionStep] at h
  by_cases hci : ci < 0
  · rw [if_pos hci] at h; exact absurd h (by simp)
  · rw [if_neg hci] at h
    cases hcl : m.core_data.clause_set.clause_list.get? ci.toNat with
    | none => rw [hcl] at h; exact absurd h (by simp)
    | some clause =>
      rw [hcl] at h
      dsimp only at h
      by_cases hul : detect_universal_literal clause m.core_data.variable_quantification = []
      · rw [if_pos hul] at h
        have := Option.some.inj h
        injection this with h1 h2
        subst h1
        exact ⟨rfl, rfl⟩
      · rw [if_neg hul] at h
        cases hrm : remove_universal_literal m.core_data
            (detect_universal_literal clause m.core_data.variable_quantification) ci with
        | none => rw [hrm] at h; exact absurd h (by simp)
        | some mx2 =>
          rw [hrm] at h
          dsimp only at h
          cases hcc : mx2.clause_set.check_contradiction none with
          | none => rw [hcc] at h; exact absurd h (by simp)
          | some p =>
            rw [hcc] at h
            obtain ⟨cs2, flag⟩ := p
            cases flag with
            | true =>
              dsimp only at h
              have := Option.some.inj h
              injection this with h1 h2
              subst h1
              exact ⟨rfl, rfl⟩
            | false =>
              dsimp only at h
              cases hra : readd_universal_literal mx2
                  (detect_universal_literal clause m.core_data.variable_quantification) ci with
              | none => rw [hra] at h; exact absurd h (by simp)
              | some mx3 =>
                rw [hra] at h
                have := Option.some.inj h
                injection this with h1 h2
                subst h1
                exact ⟨rfl, rfl⟩

theorem upNegLoop_frame (l : Int) (defq : QuantifierType) :
    ∀ (refs : List Int) (m : CDCLMatrix) (q : List Int) (imp : List (Int × Int))
      (r : CDCLMatrix) (q2 : List Int) (imp2 : List (Int × Int)) (b : Bool),
      upNegLoop l defq refs m q imp = some (r, q2, imp2, b) →
      r.trail = m.trail ∧ r.assignments = m.assignments := by
  intro refs
  induction refs with
  | nil =>
    intro m q imp r q2 imp2 b h
    rw [upNegLoop] at h
    have := Option.some.inj h
    injection this with h1 h2
    subst h1
    exact ⟨rfl, rfl⟩
  | cons ci rest ih =>
    intro m q imp r q2 imp2 b h
    rw [upNegLoop] at h
    by_cases hci : ci < 0
    · rw [if_pos hci] at h; exact absurd h (by simp)
    · rw [if_neg hci] at h
      cases hcl : setClause m.core_data.clause_set.clause_list ci.toNat
          (fun c =>
            if defq = QuantifierType.Existential then c.remove_e_literal (-l)
            else c.remove_a_literal (-l)) with
      | none => rw [hcl] at h; exact absurd h (by simp)
      | some cl =>
        rw [hcl] at h
        dsimp only at h
        cases hred : (if ({ m with core_data :=
              { m.core_data with
                clause_set := { m.core_data.clause_set with clause_list := cl },
                clause_references := mmRemoveKey m.core_data.clause_references (-l) } } :
            CDCLMatrix).core_data.config.universal_reduction_enabled then
            upReductionStep { m with core_data :=
              { m.core_data with
                clause_set := { m.core_data.clause_set with clause_list := cl },
                clause_references := mmRemoveKey m.core_data.clause_references (-l) } } ci
          else some ({ m with core_data :=
              { m.core_data with
                clause_set := { m.core_data.clause_set with clause_list := cl },
                clause_references := mmRemoveKey m.core_data.clause_references (-l) } }, false)) with
      | none => rw [hred] at h; exact absurd h (by simp)
      | some p =>
        rw [hred] at h
        obtain ⟨m3, flag⟩ := p
        have hm3 : m3.trail = m.trail ∧ m3.assignments = m.assignments := by
          by_cases hcfg : ({ m with core_data :=
              { m.core_data with
                clause_set := { m.core_data.clause_set with clause_list := cl },
                clause_references := mmRemoveKey m.core_data.clause_references (-l) } } :
              CDCLMatrix).core_data.config.universal_reduction_enabled
          · rw [if_pos hcfg] at hred
            have hf := upReductionStep_frame _ _ _ _ hred
            exact ⟨hf.1, hf.2⟩
          · rw [if_neg hcfg] at hred
            have := Option.some.inj hred
            injection this with h1 h2
            subst h1
            exact ⟨rfl, rfl⟩
        cases flag with
        | true =>
          dsimp only at h
          have := Option.some.inj h
          injection this with h1 h2
          subst h1
          exact hm3
        | false =>
          dsimp only at h
          cases hcc : m3.core_data.clause_set.check_contradiction (some ci) with
          | none => rw [hcc] at h; exact absurd h (by simp)
          | some p2 =>
            rw [hcc] at h
            obtain ⟨cs4, flag2⟩ := p2
            cases flag2 with
            | true =>
              dsimp only at h
              cases hoc : m3.original_clause_list.get? ci.toNat with
              | none => rw [hoc] at h; exact absurd h (by simp)
              | some conflict =>
                rw [hoc] at h
                have := Option.some.inj h
                injection this with h1 h2
                subst h1
                exact hm3
            | false =>
              dsimp only at h
              cases hgc : (({ m3 with core_data := { m3.core_data with clause_set := cs4 } } :
                  CDCLMatrix)).core_data.clause_set.clause_list.get? ci.toNat with
              | none => rw [hgc] at h; exact absurd h (by simp)
              | some c =>
                rw [hgc] at h
                dsimp only at h
                cases huc : c.is_unit_clause with
                | none =>
                  rw [huc] at h
                  have := ih _ _ _ r q2 imp2 b h
                  exact ⟨this.1.trans hm3.1, this.2.trans hm3.2⟩
                | some u =>
                  rw [huc] at h
                  dsimp only at h
                  by_cases hq : u ∈ q
                  · rw [if_pos hq] at h
                    have := ih _ _ _ r q2 imp2 b h
                    exact ⟨this.1.trans hm3.1, this.2.trans hm3.2⟩
                  · rw [if_neg hq] at h
                    have := ih _ _ _ r q2 imp2 b h
                    exact ⟨this.1.trans hm3.1, this.2.trans hm3.2⟩

theorem upAux_frame :
    ∀ (fuel : Nat) (m : CDCLMatrix) (queue : List Int) (implied : List (Int × Int))
      (s : CDCLMatrix),
      upAux fuel m queue implied false = some s →
      s.trail = m.trail ∧ s.assignments = m.assignments := by
  intro fuel
  induction fuel with
  | zero =>
    intro m q imp s h
    rw [upAux] at h
    exact absurd h (by simp)
  | succ n ih =>
    intro m q imp s h
    cases q with
    | nil =>
      rw [upAux] at h
      have := Option.some.inj h
      subst this
      exact ⟨rfl, rfl⟩
    | cons l qrest =>
      rw [upAux] at h
      simp only [Bool.false_eq_true, if_false, reduceIte] at h
      cases hqt : get_quantifier_type m.core_data.quantifier_list l with
      | mk qt1 qpos =>
        rw [hqt] at h
        dsimp only at h
        cases qpos with
        | some i =>
          dsimp only at h
          by_cases hu : qt1 = QuantifierType.Universal
          · rw [if_pos hu] at h
            have := Option.some.inj h
            subst this
            exact ⟨rfl, rfl⟩
          · rw [if_neg hu] at h
            cases hpos : upPosLoop (mmGetVec ({ m with core_data :=
                { m.core_data with
                  quantifier_list := m.core_data.quantifier_list.eraseIdx i } } :
                CDCLMatrix).core_data.clause_references l) { m with core_data :=
                { m.core_data with
                  quantifier_list := m.core_data.quantifier_list.eraseIdx i } } with
            | none => rw [hpos] at h; exact absurd h (by simp)
            | some p =>
              rw [hpos] at h
              obtain ⟨m3, flag⟩ := p
              have hf3 := upPosLoop_frame _ _ _ _ hpos
              cases flag with
              | true =>
                dsimp only at h
                have := Option.some.inj h
                subst this
                exact ⟨hf3.1, hf3.2⟩
              | false =>
                dsimp only at h
                by_cases hneg : (mmGetVec m3.core_data.clause_references (-l)).isEmpty = true
                · rw [if_pos hneg] at h
                  have := ih _ _ _ _ h
                  exact ⟨this.1.trans hf3.1, this.2.trans hf3.2⟩
                · rw [if_neg hneg] at h
                  cases hdv : mmGet m3.core_data.variable_quantification (intAbs l) with
                  | none => rw [hdv] at h; exact absurd h (by simp)
                  | some dv =>
                    rw [hdv] at h
                    dsimp only at h
                    cases hnl : upNegLoop l dv.q_type
                        (mmGetVec m3.core_data.clause_references (-l)) m3 qrest imp with
                    | none => rw [hnl] at h; exact absurd h (by simp)
                    | some p2 =>
                      rw [hnl] at h
                      obtain ⟨m4, q2, imp2, flag2⟩ := p2
                      have hf4 := upNegLoop_frame _ _ _ _ _ _ _ _ _ _ hnl
                      cases flag2 with
                      | true =>
                        dsimp only at h
                        have := Option.some.inj h
                        subst this
                        exact ⟨hf4.1.trans hf3.1, hf4.2.trans hf3.2⟩
                      | false =>
                        dsimp only at h
                        have := ih _ _ _ _ h
                        exact ⟨(this.1.trans hf4.1).trans hf3.1,
                          (this.2.trans hf4.2).trans hf3.2⟩
        | none =>
          dsimp only at h
          by_cases hu : qt1 = QuantifierType.Universal
          · rw [if_pos hu] at h
            have := Option.some.inj h
            subst this
            exact ⟨rfl, rfl⟩
          · rw [if_neg hu] at h
            cases hpos : upPosLoop (mmGetVec m.core_data.clause_references l) m with
            | none => rw [hpos] at h; exact absurd h (by simp)
            | some p =>
              rw [hpos] at h
              obtain ⟨m3, flag⟩ := p
              have hf3 := upPosLoop_frame _ _ _ _ hpos
              cases flag with
              | true =>
                dsimp only at h
                have := Option.some.inj h
                subst this
                exact ⟨hf3.1, hf3.2⟩
              | false =>
                dsimp only at h
                by_cases hneg : (mmGetVec m3.core_data.clause_references (-l)).isEmpty = true
                · rw [if_pos hneg] at h
                  have := ih _ _ _ _ h
                  exact ⟨this.1.trans hf3.1, this.2.trans hf3.2⟩
                · rw [if_neg hneg] at h
                  cases hdv : mmGet m3.core_data.variable_quantification (intAbs l) with
                  | none => rw [hdv] at h; exact absurd h (by simp)
                  | some dv =>
                    rw [hdv] at h
                    dsimp only at h
                    cases hnl : upNegLoop l dv.q_type
                        (mmGetVec m3.core_data.clause_references (-l)) m3 qrest imp with
                    | none => rw [hnl] at h; exact absurd h (by simp)
                    | some p2 =>
                      rw [hnl] at h
                      obtain ⟨m4, q2, imp2, flag2⟩ := p2
                      have hf4 := upNegLoop_frame _ _ _ _ _ _ _ _ _ _ hnl
                      cases flag2 with
                      | true =>
                        dsimp only at h
                        have := Option.some.inj h
                        subst this
                        exact ⟨hf4.1.trans hf3.1, hf4.2.trans hf3.2⟩
                      | false =>
                        dsimp only at h
                        have := ih _ _ _ _ h
                        exact ⟨(this.1.trans hf4.1).trans hf3.1,
                          (this.2.trans hf4.2).trans hf3.2⟩


/-- C9: the CDCL `unit_propagate` called with the decision flag false
leaves the trail and the assignment map unchanged, whatever it
propagates. -/
theorem unit_propagate_no_decision_frame (fuel : Nat) (m : CDCLMatrix)
    (unit_literal : List Int) (s : CDCLMatrix)
    (h : unit_propagate fuel m unit_literal false = some s) :
    s.trail = m.trail ∧ s.assignments = m.assignments :=
  upAux_frame fuel m unit_literal [] s h

/-- Witness for C9: propagating literal 1 through the empty matrix with
the decision flag false terminates and keeps trail and assignments. -/
theorem unit_propagate_no_decision_frame_witness :
    unit_propagate 2 cdclBase [1] false = some cdclBase ∧
      cdclBase.trail = cdclBase.trail ∧ cdclBase.assignments = cdclBase.assignments :=
  ⟨by decide, unit_propagate_no_decision_frame 2 cdclBase [1] cdclBase (by decide)⟩


theorem unsatFold_presence (m : CDCLMatrix) :
    ∀ (w : List Int) (oU e0 : Bool) (b : Bool),
      unsatFold m w oU e0 = some b → CheckPresence m w := by
  intro w
  induction w with
  | nil => intro _ _ _ _ x hx; simp at hx
  | cons y rest ih =>
    intro oU e0 b h
    rw [unsatFold] at h
    cases hv : mmGet m.core_data.variable_quantification (intAbs y) with
    | none => rw [hv] at h; exact absurd h (by simp)
    | some v =>
      rw [hv] at h
      dsimp only at h
      by_cases hq : v.q_type = QuantifierType.Existential
      · rw [if_pos hq] at h
        cases ha : mmGet m.assignments (intAbs y) with
        | none => rw [ha] at h; exact absurd h (by simp)
        | some a =>
          rw [ha] at h
          dsimp only at h
          have hrest := ih _ _ _ h
          intro x hx
          rcases List.mem_cons.mp hx with rfl | hx'
          · exact ⟨by rw [hv]; rfl, fun v' hv' _ => by rw [ha]; rfl⟩
          · exact hrest x hx'
      · rw [if_neg hq] at h
        have hrest := ih _ _ _ h
        intro x hx
        rcases List.mem_cons.mp hx with rfl | hx'
        · refine ⟨by rw [hv]; rfl, fun v' hv' hq' => ?_⟩
          rw [hv] at hv'
          have := Option.some.inj hv'
          subst this
          exact absurd hq' hq
        · exact hrest x hx'

theorem unsatFold_char (m : CDCLMatrix) :
    ∀ (w : List Int) (oU e0 : Bool), CheckPresence m w →
      ∃ b, unsatFold m w oU e0 = some b ∧
        (b = true ↔
          ((oU = true ∧ ∀ x ∈ w, ∀ v,
              mmGet m.core_data.variable_quantification (intAbs x) = some v →
              v.q_type = QuantifierType.Universal) ∨
           (e0 = true ∧ ∀ x ∈ w, ∀ v,
              mmGet m.core_data.variable_quantification (intAbs x) = some v →
              v.q_type = QuantifierType.Existential →
              ∀ a, mmGet m.assignments (intAbs x) = some a →
                a.decision_level ≤ 0))) := by
  intro w
  induction w with
  | nil =>
    intro oU e0 _
    refine ⟨oU || e0, rfl, ?_⟩
    simp only [Bool.or_eq_true]
    constructor
    · rintro (h | h)
      · exact Or.inl ⟨h, by intro x hx; simp at hx⟩
      · exact Or.inr ⟨h, by intro x hx; simp at hx⟩
    · rintro (⟨h, _⟩ | ⟨h, _⟩)
      · exact Or.inl h
      · exact Or.inr h
  | cons y rest ih =>
    intro oU e0 hpres
    obtain ⟨hvy, hay⟩ := hpres y (List.mem_cons_self _ _)
    obtain ⟨v, hv⟩ := Option.isSome_iff_exists.mp hvy
    have hprest : CheckPresence m rest := fun x hx => hpres x (List.mem_cons_of_mem _ hx)
    rw [unsatFold]
    rw [hv]
    dsimp only
    by_cases hq : v.q_type = QuantifierType.Existential
    · rw [if_pos hq]
      obtain ⟨a, ha⟩ := Option.isSome_iff_exists.mp (hay v hv hq)
      rw [ha]
      dsimp only
      obtain ⟨b, hb, hiff⟩ := ih false (if a.decision_level > 0 then false else e0) hprest
      refine ⟨b, hb, ?_⟩
      rw [hiff]
      constructor
      · rintro (⟨hfalse, _⟩ | ⟨he0', hall⟩)
        · exact absurd hfalse (by simp)
        · by_cases hdl : a.decision_level > 0
          · rw [if_pos hdl] at he0'
            exact absurd he0' (by simp)
          · rw [if_neg hdl] at he0'
            refine Or.inr ⟨he0', ?_⟩
            intro x hx v' hv' hq' a' ha'
            rcases List.mem_cons.mp hx with rfl | hx'
            · rw [ha] at ha'
              have := Option.some.inj ha'
              subst this
              omega
            · exact hall x hx' v' hv' hq' a' ha'
      · rintro (⟨_, honly⟩ | ⟨he0, hall⟩)
        · exact absurd (honly y (List.mem_cons_self _ _) v hv)
            (by rw [hq]; intro hcon; exact QuantifierType.noConfusion hcon)
        · have hdl : a.decision_level ≤ 0 :=
            hall y (List.mem_cons_self _ _) v hv hq a ha
          refine Or.inr ⟨?_, ?_⟩
          · rw [if_neg (by omega)]
            exact he0
          · intro x hx' v' hv' hq' a' ha'
            exact hall x (List.mem_cons_of_mem _ hx') v' hv' hq' a' ha'
    · rw [if_neg hq]
      obtain ⟨b, hb, hiff⟩ := ih oU e0 hprest
      refine ⟨b, hb, ?_⟩
      rw [hiff]
      have hvu : v.q_type = QuantifierType.Universal := by
        cases hvt : v.q_type with
        | Universal => rfl
        | Existential => exact absurd hvt hq
      constructor
      · rintro (⟨hoU, honly⟩ | ⟨he0, hall⟩)
        · refine Or.inl ⟨hoU, ?_⟩
          intro x hx v' hv'
          rcases List.mem_cons.mp hx with rfl | hx'
          · rw [hv] at hv'
            have := Option.some.inj hv'
            subst this
            exact hvu
          · exact honly x hx' v' hv'
        · refine Or.inr ⟨he0, ?_⟩
          intro x hx v' hv' hq' a' ha'
          rcases List.mem_cons.mp hx with rfl | hx'
          · rw [hv] at hv'
            have := Option.some.inj hv'
            subst this
            exact absurd hq' hq
          · exact hall x hx' v' hv' hq' a' ha'
      · rintro (⟨hoU, honly⟩ | ⟨he0, hall⟩)
        · exact Or.inl ⟨hoU, fun x hx v' hv' => honly x (List.mem_cons_of_mem _ hx) v' hv'⟩
        · exact Or.inr ⟨he0, fun x hx v' hv' hq' a' ha' =>
            hall x (List.mem_cons_of_mem _ hx) v' hv' hq' a' ha'⟩
theorem check_unsat_char (m : CDCLMatrix) (w : List Int)
    (hpres : CheckPresence m w)
    (hasg : ∀ k a, mmGet m.assignments k = some a → 0 ≤ a.decision_level) :
    ∃ b, check_unsatisfiability_criteria m w = some b ∧
      (b = true ↔ SpecUnsatCondition m w) := by
  obtain ⟨b, hb, hiff⟩ := unsatFold_char m w true true hpres
  refine ⟨b, hb, ?_⟩
  rw [hiff, SpecUnsatCondition]
  constructor
  · rintro (⟨_, honly⟩ | ⟨_, hall⟩)
    · exact Or.inl honly
    · refine Or.inr ?_
      intro x hx v hv hq a ha
      have h1 := hall x hx v hv hq a ha
      have h2 := hasg (intAbs x) a ha
      omega
  · rintro (honly | hall)
    · exact Or.inl ⟨rfl, honly⟩
    · refine Or.inr ⟨rfl, ?_⟩
      intro x hx v hv hq a ha
      have := hall x hx v hv hq a ha
      omega

theorem check_unsat_empty (m : CDCLMatrix) :
    check_unsatisfiability_criteria m [] = some true := rfl


theorem analyseLoop_stopped_empty (m : CDCLMatrix) :
    ∀ (tr : List Assignment) (w w' : List Int) (bt : Int),
      analyseLoop m tr w = some (ConflictLoopResult.stopped w' bt) →
      w' = [] → bt = -2 := by
  intro tr
  induction tr with
  | nil =>
    intro w w' bt h hw'
    subst hw'
    rw [analyseLoop] at h
    cases hco : contains_one_highest_decision_literal m w with
    | none => rw [hco] at h; exact absurd h (by simp)
    | some t =>
      rw [hco] at h
      obtain ⟨hdl, hlvl, c1⟩ := t
      dsimp only at h
      cases hcb : calculate_backtrack_level m w hlvl with
      | none => rw [hcb] at h; exact absurd h (by simp)
      | some bt0 =>
        rw [hcb] at h
        have hinj := Option.some.inj h
        injection hinj with h1 h2
        subst h1
        have hco2 : contains_one_highest_decision_literal m [] =
            some ((-1 : Int), (-1 : Int), true) := rfl
        rw [hco2] at hco
        have hinj2 := Option.some.inj hco
        injection hinj2 with ha hb
        injection hb with hb1 hb2
        subst hb1
        have hcb2 : calculate_backtrack_level m [] (-1) = some (-2) := rfl
        rw [hcb2] at hcb
        have := Option.some.inj hcb
        omega
  | cons a rest ih =>
    intro w w' bt h hw'
    rw [analyseLoop] at h
    by_cases hdec : a.is_decision = true
    · rw [if_pos hdec] at h
      exact ih w w' bt h hw'
    · rw [if_neg hdec] at h
      cases hv : mmGet m.core_data.variable_quantification (intAbs a.value) with
      | none => rw [hv] at h; exact absurd h (by simp)
      | some v =>
        rw [hv] at h
        dsimp only at h
        by_cases hcond : v.q_type = QuantifierType.Existential ∧ (a.value ∈ w ∨ -a.value ∈ w)
        · rw [if_pos hcond] at h
          cases hcr : a.clause_responsible with
          | none => rw [hcr] at h; exact absurd h (by simp)
          | some ci =>
            rw [hcr] at h
            dsimp only at h
            by_cases hci : ci < 0
            · rw [if_pos hci] at h; exact absurd h (by simp)
            · rw [if_neg hci] at h
              cases hor : m.original_clause_list.get? ci.toNat with
              | none => rw [hor] at h; exact absurd h (by simp)
              | some reason =>
                rw [hor] at h
                dsimp only at h
                cases hres : resolve w reason.get_literal_list a.value with
                | none => rw [hres] at h; exact absurd h (by simp)
                | some w2 =>
                  rw [hres] at h
                  dsimp only at h
                  cases hck : check_unsatisfiability_criteria m w2 with
                  | none => rw [hck] at h; exact absurd h (by simp)
                  | some flag =>
                    rw [hck] at h
                    cases flag with
                    | true =>
                      dsimp only at h
                      exact absurd h (by simp)
                    | false =>
                      dsimp only at h
                      cases hco : contains_one_highest_decision_literal m w2 with
                      | none => rw [hco] at h; exact absurd h (by simp)
                      | some t =>
                        rw [hco] at h
                        obtain ⟨hdl, hlvl, c1⟩ := t
                        dsimp only at h
                        by_cases hc1 : c1 = false
                        · rw [if_pos hc1] at h
                          exact ih w2 w' bt h hw'
                        · rw [if_neg hc1] at h
                          cases hc2 : contains_highest_decision_level_decision m hlvl with
                          | none => rw [hc2] at h; exact absurd h (by simp)
                          | some c2 =>
                            rw [hc2] at h
                            dsimp only at h
                            by_cases hc2f : c2 = false
                            · rw [if_pos hc2f] at h
                              exact ih w2 w' bt h hw'
                            · rw [if_neg hc2f] at h
                              cases hc3 : all_previous_universals_assigned_correctly
                                  m w2 hdl with
                              | none => rw [hc3] at h; exact absurd h (by simp)
                              | some c3 =>
                                rw [hc3] at h
                                dsimp only at h
                                by_cases hc3f : c3 = false
                                · rw [if_pos hc3f] at h
                                  exact ih w2 w' bt h hw'
                                · rw [if_neg hc3f] at h
                                  cases hcb : calculate_backtrack_level m w2 hlvl with
                                  | none => rw [hcb] at h; exact absurd h (by simp)
                                  | some bt0 =>
                                    rw [hcb] at h
                                    have hinj := Option.some.inj h
                                    injection hinj with h1 h2
                                    subst hw'
                                    subst h1
                                    rw [check_unsat_empty] at hck
                                    have := Option.some.inj hck
                                    exact absurd this (by simp)
        · rw [if_neg hcond] at h
          exact ih w w' bt h hw'

theorem analyseLoop_unsat_triggers (m : CDCLMatrix)
    (hasg : ∀ k a, mmGet m.assignments k = some a → 0 ≤ a.decision_level) :
    ∀ (tr : List Assignment) (w : List Int),
      analyseLoop m tr w = some ConflictLoopResult.unsat → TriggersUnsat m tr w := by
  intro tr
  induction tr with
  | nil =>
    intro w h
    rw [analyseLoop] at h
    cases hco : contains_one_highest_decision_literal m w with
    | none => rw [hco] at h; exact absurd h (by simp)
    | some t =>
      rw [hco] at h
      obtain ⟨hdl, hlvl, c1⟩ := t
      dsimp only at h
      cases hcb : calculate_backtrack_level m w hlvl with
      | none => rw [hcb] at h; exact absurd h (by simp)
      | some bt0 =>
        rw [hcb] at h
        have := Option.some.inj h
        exact absurd this (by simp)
  | cons a rest ih =>
    intro w h
    rw [analyseLoop] at h
    by_cases hdec : a.is_decision = true
    · rw [if_pos hdec] at h
      exact TriggersUnsat.skipDecision hdec (ih w h)
    · rw [if_neg hdec] at h
      have hdec' : a.is_decision = false := by simpa using hdec
      cases hv : mmGet m.core_data.variable_quantification (intAbs a.value) with
      | none => rw [hv] at h; exact absurd h (by simp)
      | some v =>
        rw [hv] at h
        dsimp only at h
        by_cases hcond : v.q_type = QuantifierType.Existential ∧ (a.value ∈ w ∨ -a.value ∈ w)
        · rw [if_pos hcond] at h
          cases hcr : a.clause_responsible with
          | none => rw [hcr] at h; exact absurd h (by simp)
          | some ci =>
            rw [hcr] at h
            dsimp only at h
            by_cases hci : ci < 0
            · rw [if_pos hci] at h; exact absurd h (by simp)
            · rw [if_neg hci] at h
              cases hor : m.original_clause_list.get? ci.toNat with
              | none => rw [hor] at h; exact absurd h (by simp)
              | some reason =>
                rw [hor] at h
                dsimp only at h
                cases hres : resolve w reason.get_literal_list a.value with
                | none => rw [hres] at h; exact absurd h (by simp)
                | some w2 =>
                  rw [hres] at h
                  dsimp only at h
                  cases hck : check_unsatisfiability_criteria m w2 with
                  | none => rw [hck] at h; exact absurd h (by simp)
                  | some flag =>
                    rw [hck] at h
                    have hpres : CheckPresence m w2 :=
                      unsatFold_presence m w2 true true flag hck
                    obtain ⟨b, hb, hiff⟩ := check_unsat_char m w2 hpres hasg
                    rw [hck] at hb
                    have hbf := Option.some.inj hb
                    cases flag with
                    | true =>
                      have hspec : SpecUnsatCondition m w2 := hiff.mp hbf.symm
                      exact TriggersUnsat.here hdec' hv hcond.1 hcond.2 hcr hci hor
                        hres hpres hspec
                    | false =>
                      dsimp only at h
                      have hnspec : ¬ SpecUnsatCondition m w2 := by
                        intro hs
                        have := hiff.mpr hs
                        rw [← hbf] at this
                        exact Bool.noConfusion this
                      cases hco : contains_one_highest_decision_literal m w2 with
                      | none => rw [hco] at h; exact absurd h (by simp)
                      | some t =>
                        rw [hco] at h
                        obtain ⟨hdl, hlvl, c1⟩ := t
                        dsimp only at h
                        by_cases hc1 : c1 = false
                        · rw [if_pos hc1] at h
                          have hstop : stopCheck m w2 = some false := by
                            rw [stopCheck, hco]
                            dsimp only
                            rw [if_pos hc1]
                          exact TriggersUnsat.skipAfterResolution hdec' hv hcond.1
                            hcond.2 hcr hci hor hres hpres hnspec hstop (ih w2 h)
                        · rw [if_neg hc1] at h
                          cases hc2 : contains_highest_decision_level_decision m hlvl with
                          | none => rw [hc2] at h; exact absurd h (by simp)
                          | some c2 =>
                            rw [hc2] at h
                            dsimp only at h
                            by_cases hc2f : c2 = false
                            · rw [if_pos hc2f] at h
                              have hstop : stopCheck m w2 = some false := by
                                rw [stopCheck, hco]
                                dsimp only
                                rw [if_neg hc1, hc2]
                                dsimp only
                                rw [if_pos hc2f]
                              exact TriggersUnsat.skipAfterResolution hdec' hv hcond.1
                                hcond.2 hcr hci hor hres hpres hnspec hstop (ih w2 h)
                            · rw [if_neg hc2f] at h
                              cases hc3 : all_previous_universals_assigned_correctly
                                  m w2 hdl with
                              | none => rw [hc3] at h; exact absurd h (by simp)
                              | some c3 =>
                                rw [hc3] at h
                                dsimp only at h
                                by_cases hc3f : c3 = false
                                · rw [if_pos hc3f] at h
                                  have hstop : stopCheck m w2 = some false := by
                                    rw [stopCheck, hco]
                                    dsimp only
                                    rw [if_neg hc1, hc2]
                                    dsimp only
                                    rw [if_neg hc2f, hc3, hc3f]
                                  exact TriggersUnsat.skipAfterResolution hdec' hv
                                    hcond.1 hcond.2 hcr hci hor hres hpres hnspec
                                    hstop (ih w2 h)
                                · rw [if_neg hc3f] at h
                                  cases hcb : calculate_backtrack_level m w2 hlvl with
                                  | none => rw [hcb] at h; exact absurd h (by simp)
                                  | some bt0 =>
                                    rw [hcb] at h
                                    have := Option.some.inj h
                                    exact absurd this (by simp)
        · rw [if_neg hcond] at h
          exact TriggersUnsat.skipNoResolution hdec' hv hcond (ih w h)


theorem triggers_analyseLoop_unsat (m : CDCLMatrix)
    (hasg : ∀ k a, mmGet m.assignments k = some a → 0 ≤ a.decision_level)
    (tr : List Assignment) (w : List Int) (htrig : TriggersUnsat m tr w) :
    analyseLoop m tr w = some ConflictLoopResult.unsat := by
  induction htrig with
  | @here a rest w w2 v ci reason hdec hv hq hmem hcr hci hor hres hpres hspec =>
    rw [analyseLoop]
    rw [if_neg (by simp [hdec])]
    rw [hv]
    dsimp only
    rw [if_pos ⟨hq, hmem⟩, hcr]
    dsimp only
    rw [if_neg hci, hor]
    dsimp only
    rw [hres]
    dsimp only
    obtain ⟨b, hb, hiff⟩ := check_unsat_char m w2 hpres hasg
    have hbt : b = true := hiff.mpr hspec
    subst hbt
    rw [hb]
  | skipDecision hdec ht ih =>
    rw [analyseLoop, if_pos hdec]
    exact ih
  | skipNoResolution hdec hv hncond ht ih =>
    rw [analyseLoop]
    rw [if_neg (by simp [hdec])]
    rw [hv]
    dsimp only
    rw [if_neg hncond]
    exact ih
  | @skipAfterResolution a rest w w2 v ci reason hdec hv hq hmem hcr hci hor hres
      hpres hnspec hstop ht ih =>
    rw [analyseLoop]
    rw [if_neg (by simp [hdec]), hv]
    dsimp only
    rw [if_pos ⟨hq, hmem⟩, hcr]
    dsimp only
    rw [if_neg hci, hor]
    dsimp only
    rw [hres]
    dsimp only
    obtain ⟨b, hb, hiff⟩ := check_unsat_char m w2 hpres hasg
    have hbf : b = false := by
      cases b with
      | false => rfl
      | true => exact absurd (hiff.mp rfl) hnspec
    subst hbf
    rw [hb]
    dsimp only
    rw [stopCheck] at hstop
    cases hco : contains_one_highest_decision_literal m w2 with
    | none =>
      rw [hco] at hstop
      simp at hstop
    | some t =>
      rw [hco] at hstop
      obtain ⟨hdl, hlvl, c1⟩ := t
      dsimp only at hstop ⊢
      by_cases hc1 : c1 = false
      · rw [if_pos hc1]
        exact ih
      · rw [if_neg hc1] at hstop ⊢
        cases hc2 : contains_highest_decision_level_decision m hlvl with
        | none =>
          rw [hc2] at hstop
          simp at hstop
        | some c2 =>
          rw [hc2] at hstop
          dsimp only at hstop ⊢
          by_cases hc2f : c2 = false
          · rw [if_pos hc2f]
            exact ih
          · rw [if_neg hc2f] at hstop ⊢
            cases hc3 : all_previous_universals_assigned_correctly m w2 hdl with
            | none =>
              rw [hc3] at hstop
              simp at hstop
            | some c3 =>
              rw [hc3] at hstop
              dsimp only at hstop ⊢
              have hc3f := Option.some.inj hstop
              rw [if_pos hc3f]
              exact ih

theorem mmGet_mem {α : Type} (l : List (Int × α)) (k : Int) (a : α)
    (h : mmGet l k = some a) : (k, a) ∈ l := by
  rw [mmGet] at h
  cases hf : l.find? (fun p => p.1 == k) with
  | none => rw [hf] at h; exact absurd h (by simp)
  | some p =>
    rw [hf] at h
    have hp := Option.some.inj h
    have hmem := List.mem_of_find?_eq_some hf
    have hkey := List.find?_some hf
    have hk : p.1 = k := by simpa using hkey
    have : p = (k, a) := by
      cases p with
      | mk p1 p2 =>
        simp only at hp hk
        rw [hp, hk]
    rw [← this]
    exact hmem

/-- C5: `analyse_conflict` returns the empty clause with backjump level
−1 exactly when, at some point after a resolution step in its loop, the
working clause contains only universal literals (including being empty)
or has every existential literal assigned at decision level 0 — under
the ambient solver invariants that the current decision level and all
recorded assignment levels are non-negative. -/
theorem analyse_conflict_unsat_iff (m : CDCLMatrix)
    (hdl0 : 0 ≤ m.decision_level)
    (hasg : ∀ p ∈ m.assignments, 0 ≤ (p.2 : Assignment).decision_level) :
    analyse_conflict m = some (Clause.new_empty_clause, -1) ↔
      ∃ conflict, m.conflict_clause = some conflict ∧
        TriggersUnsat m m.trail.reverse conflict.get_literal_list := by
  have hasg' : ∀ k a, mmGet m.assignments k = some a → 0 ≤ a.decision_level :=
    fun k a h => hasg (k, a) (mmGet_mem _ _ _ h)
  constructor
  · intro h
    rw [analyse_conflict] at h
    cases hcc : m.conflict_clause with
    | none =>
      rw [hcc] at h
      dsimp only at h
      have := Option.some.inj h
      injection this with h1 h2
      omega
    | some conflict =>
      rw [hcc] at h
      dsimp only at h
      cases hal : analyseLoop m m.trail.reverse conflict.get_literal_list with
      | none => rw [hal] at h; exact absurd h (by simp)
      | some r =>
        rw [hal] at h
        cases r with
        | unsat =>
          exact ⟨conflict, rfl, analyseLoop_unsat_triggers m hasg' _ _ hal⟩
        | stopped w bt =>
          dsimp only at h
          cases hcv : convert_literals_to_clause m.core_data.variable_quantification
              m.core_data.quantification_order w with
          | none => rw [hcv] at h; exact absurd h (by simp)
          | some c2 =>
            rw [hcv] at h
            have hinj := Option.some.inj h
            injection hinj with h1 h2
            have hwnil : w = [] := by
              have hlen := convert_length _ _ _ _ hcv
              rw [h1] at hlen
              have h0 : (Clause.new_empty_clause).get_clause_length = 0 := rfl
              rw [h0] at hlen
              exact List.length_eq_zero.mp hlen.symm
            have hbt := analyseLoop_stopped_empty m _ _ _ _ hal hwnil
            rw [hwnil] at h2
            simp only [List.length_nil] at h2
            rw [if_neg (by omega)] at h2
            omega
  · rintro ⟨conflict, hcc, htrig⟩
    rw [analyse_conflict, hcc]
    dsimp only
    rw [triggers_analyseLoop_unsat m hasg' _ _ htrig]

/-- Witness for C5: conflict clause `x1`, with `¬x1` implied at level 0
by the unit clause `¬x1`; resolution empties the working clause and
`analyse_conflict` reports UNSAT. -/
theorem analyse_conflict_unsat_iff_witness :
    analyse_conflict
        { cdclBase with
          core_data :=
            { matrixEmpty with
              variable_quantification :=
                [((1 : Int), ⟨QuantifierType.Existential, 1, 1⟩)] },
          conflict_clause := some ⟨[1], [], false⟩,
          original_clause_list := [⟨[-1], [], false⟩],
          trail := [⟨-1, 0, some 0⟩],
          assignments := [((1 : Int), ⟨-1, 0, some 0⟩)] } =
      some (Clause.new_empty_clause, -1) ↔
    ∃ conflict,
      ({ cdclBase with
          core_data :=
            { matrixEmpty with
              variable_quantification :=
                [((1 : Int), ⟨QuantifierType.Existential, 1, 1⟩)] },
          conflict_clause := some ⟨[1], [], false⟩,
          original_clause_list := [⟨[-1], [], false⟩],
          trail := [⟨-1, 0, some 0⟩],
          assignments := [((1 : Int), ⟨-1, 0, some 0⟩)] } :
          CDCLMatrix).conflict_clause = some conflict ∧
      TriggersUnsat
        { cdclBase with
          core_data :=
            { matrixEmpty with
              variable_quantification :=
                [((1 : Int), ⟨QuantifierType.Existential, 1, 1⟩)] },
          conflict_clause := some ⟨[1], [], false⟩,
          original_clause_list := [⟨[-1], [], false⟩],
          trail := [⟨-1, 0, some 0⟩],
          assignments := [((1 : Int), ⟨-1, 0, some 0⟩)] }
        ({ cdclBase with
          core_data :=
            { matrixEmpty with
              variable_quantification :=
                [((1 : Int), ⟨QuantifierType.Existential, 1, 1⟩)] },
          conflict_clause := some ⟨[1], [], false⟩,
          original_clause_list := [⟨[-1], [], false⟩],
          trail := [⟨-1, 0, some 0⟩],
          assignments := [((1 : Int), ⟨-1, 0, some 0⟩)] } : CDCLMatrix).trail.reverse
        conflict.get_literal_list :=
  analyse_conflict_unsat_iff
    { cdclBase with
      core_data :=
        { matrixEmpty with
          variable_quantification :=
            [((1 : Int), ⟨QuantifierType.Existential, 1, 1⟩)] },
      conflict_clause := some ⟨[1], [], false⟩,
      original_clause_list := [⟨[-1], [], false⟩],
      trail := [⟨-1, 0, some 0⟩],
      assignments := [((1 : Int), ⟨-1, 0, some 0⟩)] }
    (by decide) (by decide)

end QbfSolver
